import Mathlib

/-!
# Verification of `cost_matrix.cpp` (little-tsp)

A shallow embedding of `src/tsp_solver/little_tsp/cost_matrix.cpp`, the
condensed cost-matrix core of a Little's-algorithm branch-and-bound TSP
solver, together with theorems settling the specification claims.

Modelling conventions:
* C++ `int` costs become `Int`; vertex indices become `Nat`.
* The `Matrix<CostMatrixInteger>` storage becomes a rectangular
  `List (List CostMatrixInteger)` (row-major), with the column count carried
  separately (`Rect m cols` states rectangularity).
* `unordered_map<int,int>` becomes an association list `List (Nat × Nat)`
  queried with `List.lookup`.
* A C++ `assert` failure and dereferencing an end iterator (undefined
  behaviour) are modelled as `Option.none` results.
* Declarations whose C++ source lives in headers missing from the repository
  (`cost_matrix_integer.hpp`, `matrix.hpp`, `cost_matrix.hpp`) are modelled
  from the specification; their doc comments say so.
-/

set_option autoImplicit false

namespace LittleTSP

/-- `Edge`: ordered pair (origin vertex `u`, destination vertex `v`).
From `edge.hpp` (used as `e.u`, `e.v` in `cost_matrix.cpp`). -/
structure Edge where
  u : Nat
  v : Nat
deriving DecidableEq, Repr

/-- Modelled from the spec: `CostMatrixInteger` is
`{value : Number, isInfinite : Bool, sourceEdge : Edge}` — a cost cell that
may represent "infinite" and remembers the `Edge` it was constructed from
(`cost_matrix_integer.hpp` is not in the repository). -/
structure CostMatrixInteger where
  value : Int
  infinite : Bool
  sourceEdge : Edge
deriving DecidableEq, Repr

namespace CostMatrixInteger

/-- Modelled from the spec: subtraction-in-place `operator-=`.
"Infinite minus any finite value remains infinite"; arithmetic on an
infinite cell is a no-op. On a finite cell the numeric values subtract. -/
def sub (a b : CostMatrixInteger) : CostMatrixInteger :=
  if a.infinite then a else { a with value := a.value - b.value }

/-- Modelled from the spec: the strict comparison used by `min_element`.
An infinite cell compares larger than any finite value; the order is total. -/
def lt (a b : CostMatrixInteger) : Bool :=
  !a.infinite && (b.infinite || decide (a.value < b.value))

/-- Modelled from the spec: the explicit "set infinite" mutation
(`SetInfinite()`). -/
def setInfinite (a : CostMatrixInteger) : CostMatrixInteger :=
  { a with infinite := true }

/-- The comparison `lt` is transitive. -/
theorem lt_transitive {a b c : CostMatrixInteger} (h1 : lt a b = true)
    (h2 : lt b c = true) : lt a c = true := by
  unfold lt at *
  rcases a with ⟨av, ai, ae⟩
  rcases b with ⟨bv, bi, be⟩
  rcases c with ⟨cv, ci, ce⟩
  simp only [Bool.and_eq_true, Bool.not_eq_true', Bool.or_eq_true, decide_eq_true_eq] at *
  obtain ⟨hai, h1'⟩ := h1
  obtain ⟨hbi, h2'⟩ := h2
  refine ⟨hai, ?_⟩
  rcases h2' with h2' | h2'
  · exact Or.inl h2'
  · rcases h1' with h1' | h1'
    · exact absurd h1' (by simp [hbi])
    · exact Or.inr (lt_trans h1' h2')

/-- Subtraction keeps the finiteness flag unchanged: it never turns an
infinite cell finite nor a finite cell infinite. -/
theorem infinite_sub (a b : CostMatrixInteger) : (sub a b).infinite = a.infinite := by
  unfold sub
  by_cases h : a.infinite <;> simp [h]

/-- Subtraction keeps the provenance edge unchanged. -/
theorem sourceEdge_sub (a b : CostMatrixInteger) : (sub a b).sourceEdge = a.sourceEdge := by
  unfold sub
  by_cases h : a.infinite <;> simp [h]

/-- Value of `sub` on a finite cell. -/
theorem value_sub_of_finite {a : CostMatrixInteger} (b : CostMatrixInteger)
    (h : a.infinite = false) : (sub a b).value = a.value - b.value := by
  simp [sub, h]

end CostMatrixInteger

open CostMatrixInteger

/-- `std::min_element` over a cell sequence: the first element no later
element is strictly smaller than, `none` on the empty sequence (the C++
returns the end iterator there). -/
def minElement (l : List CostMatrixInteger) : Option CostMatrixInteger :=
  match l with
  | [] => none
  | x :: xs => some (xs.foldl (fun m y => if lt y m then y else m) x)

/-- The fold underlying `minElement` returns one of its candidates. -/
theorem minFold_mem (xs : List CostMatrixInteger) (x : CostMatrixInteger) :
    xs.foldl (fun m y => if lt y m then y else m) x = x ∨
      xs.foldl (fun m y => if lt y m then y else m) x ∈ xs := by
  induction xs generalizing x with
  | nil => exact Or.inl rfl
  | cons y ys ih =>
    simp only [List.foldl_cons]
    rcases ih (if lt y x then y else x) with h | h
    · by_cases hy : lt y x
      · right
        rw [h]
        simp [hy]
      · left
        rw [h]
        simp [hy]
    · right
      exact List.mem_cons_of_mem _ h

/-- The fold underlying `minElement` never exceeds its seed, and no list
element is strictly below the result. -/
theorem minFold_le (xs : List CostMatrixInteger) (x : CostMatrixInteger) :
    lt (xs.foldl (fun m y => if lt y m then y else m) x) x ∨
      xs.foldl (fun m y => if lt y m then y else m) x = x := by
  induction xs generalizing x with
  | nil => exact Or.inr rfl
  | cons y ys ih =>
    simp only [List.foldl_cons]
    by_cases hy : lt y x
    · simp only [hy, if_true]
      rcases ih y with h | h
      · exact Or.inl (lt_transitive h hy)
      · rw [h]
        exact Or.inl hy
    · simp only [hy, if_false]
      exact ih x

/-- The comparison `lt` is irreflexive. -/
theorem lt_irreflexive (a : LittleTSP.CostMatrixInteger) :
    LittleTSP.CostMatrixInteger.lt a a = false := by
  rcases a with ⟨av, ai, ae⟩
  unfold LittleTSP.CostMatrixInteger.lt
  cases ai <;> simp

/-- The comparison `lt` is asymmetric. -/
theorem lt_asymmetric {a b : LittleTSP.CostMatrixInteger}
    (h : LittleTSP.CostMatrixInteger.lt a b = true) :
    LittleTSP.CostMatrixInteger.lt b a = false := by
  rcases a with ⟨av, ai, ae⟩
  rcases b with ⟨bv, bi, be⟩
  unfold LittleTSP.CostMatrixInteger.lt at *
  cases ai <;> cases bi <;> simp_all
  omega

/-- No candidate is strictly below the result of the `minElement` fold. -/
theorem minFold_isMin (xs : List CostMatrixInteger) (x : CostMatrixInteger) :
    ∀ z, (z = x ∨ z ∈ xs) →
      lt z (xs.foldl (fun m y => if lt y m then y else m) x) = false := by
  induction xs generalizing x with
  | nil =>
    intro z hz
    rcases hz with hzx | hz
    · rw [hzx]; exact lt_irreflexive x
    · cases hz
  | cons y ys ih =>
    intro z hz
    simp only [List.foldl_cons]
    by_cases hy : lt y x
    · rw [if_pos hy]
      rcases hz with hzx | hz
      · -- z = x; the seed was replaced by y with lt y x
        rw [hzx]
        rcases minFold_le ys y with hle | hle
        · refine Bool.eq_false_iff.mpr (fun hcon => ?_)
          have h1 := lt_transitive hcon hle
          have h2 := lt_asymmetric hy
          rw [h1] at h2
          exact absurd h2 (by simp)
        · rw [hle]
          exact lt_asymmetric hy
      · rcases List.mem_cons.mp hz with hzy | hzys
        · rw [hzy]; exact ih y y (Or.inl rfl)
        · exact ih y z (Or.inr hzys)
    · rw [if_neg hy]
      rcases hz with hzx | hz
      · rw [hzx]; exact ih x x (Or.inl rfl)
      · rcases List.mem_cons.mp hz with hzy | hzys
        · -- z = y with ¬ lt y x
          rw [hzy]
          rcases minFold_le ys x with hle | hle
          · refine Bool.eq_false_iff.mpr (fun hcon => ?_)
            have h1 := lt_transitive hcon hle
            exact hy h1
          · rw [hle]
            exact Bool.eq_false_iff.mpr hy
        · exact ih x z (Or.inr hzys)

/-- Characterisation of `minElement`: the result is a member of the list and
no list element compares strictly below it. -/
theorem minElement_spec {l : List CostMatrixInteger} {mn : CostMatrixInteger}
    (h : minElement l = some mn) : mn ∈ l ∧ ∀ z ∈ l, lt z mn = false := by
  cases l with
  | nil => simp [minElement] at h
  | cons x xs =>
    simp only [minElement, Option.some.injEq] at h
    subst h
    constructor
    · rcases minFold_mem xs x with h | h
      · rw [h]; exact List.mem_cons_self x xs
      · exact List.mem_cons_of_mem _ h
    · intro z hz
      rcases List.mem_cons.mp hz with hzx | hz
      · exact minFold_isMin xs x z (Or.inl hzx)
      · exact minFold_isMin xs x z (Or.inr hz)

/-- Cell handed to `List.getD` as a default; under rectangularity it is
never selected. -/
def dummyCell : CostMatrixInteger := ⟨0, false, ⟨0, 0⟩⟩

/-- Rectangularity of the condensed storage: every row has `cols` cells
(the `Matrix<CostMatrixInteger>` sized by `SetSize` is rectangular). -/
def Rect (m : List (List CostMatrixInteger)) (cols : Nat) : Prop :=
  ∀ r ∈ m, r.length = cols

instance (m : List (List CostMatrixInteger)) (cols : Nat) : Decidable (Rect m cols) := by
  unfold Rect
  infer_instance

/-- The cell sequence of column `j` of the condensed storage: what a
`CostColumn{&cost_matrix_, j}` view traverses (cell `k` is row `k`'s entry
in column `j`). -/
def getCol (m : List (List CostMatrixInteger)) (j : Nat) : List CostMatrixInteger :=
  m.map (fun r => r.getD j dummyCell)

/-- The `for_each` body of the row loop: `elt -= min` applied to every cell
of one row. -/
def subRow (r : List CostMatrixInteger) (mn : CostMatrixInteger) : List CostMatrixInteger :=
  r.map (fun x => sub x mn)

/-- The `for_each` body of the column loop: `elt -= min` applied to every
cell down column `j`. -/
def subCol (m : List (List CostMatrixInteger)) (j : Nat) (mn : CostMatrixInteger) :
    List (List CostMatrixInteger) :=
  m.map (fun r => r.set j (sub (r.getD j dummyCell) mn))

/-- One iteration of the row loop of `CostMatrix::ReduceMatrix`
(cost_matrix.cpp:64-73): find the row's minimum, subtract it from every
cell, return it as the decrement.  `none` models a failing
`assert(min_it != cost_row.end())` or `assert(!min.IsInfinite())`. -/
def reduceRow (r : List CostMatrixInteger) : Option (Int × List CostMatrixInteger) :=
  match minElement r with
  | none => none
  | some mn => if mn.infinite then none else some (mn.value, subRow r mn)

/-- The row-reduction loop of `CostMatrix::ReduceMatrix` (cost_matrix.cpp:64-73),
row by row, accumulating the decrements. -/
def reduceRows : List (List CostMatrixInteger) → Option (Int × List (List CostMatrixInteger))
  | [] => some (0, [])
  | r :: rs =>
    match reduceRow r with
    | none => none
    | some (d, r') =>
      match reduceRows rs with
      | none => none
      | some (ds, rs') => some (d + ds, r' :: rs')

/-- One iteration of the column loop of `CostMatrix::ReduceMatrix`
(cost_matrix.cpp:76-84): find column `j`'s minimum, subtract it from every
cell of the column.  `none` models dereferencing the end iterator of an
empty column (undefined behaviour in the C++) or a failing
`assert(!min.IsInfinite())`. -/
def reduceColStep (m : List (List CostMatrixInteger)) (j : Nat) :
    Option (Int × List (List CostMatrixInteger)) :=
  match minElement (getCol m j) with
  | none => none
  | some mn => if mn.infinite then none else some (mn.value, subCol m j mn)

/-- The column-reduction loop of `CostMatrix::ReduceMatrix`
(cost_matrix.cpp:76-84) over a list of column numbers, in order, each step
operating on the matrix the previous one produced. -/
def reduceColsFrom : List Nat → List (List CostMatrixInteger) →
    Option (Int × List (List CostMatrixInteger))
  | [], m => some (0, m)
  | j :: js, m =>
    match reduceColStep m j with
    | none => none
    | some (d, m1) =>
      match reduceColsFrom js m1 with
      | none => none
      | some (ds, m2) => some (d + ds, m2)

/-- `CostMatrix::ReduceMatrix` (cost_matrix.cpp:59-87): reduce all the rows,
then all the columns, and return the total amount decremented together with
the mutated matrix.  Modelled from the spec where `cost_matrix.hpp` is
missing: the row loop runs over every condensed row and the column loop over
every condensed column (the loop bound `Size()` is declared in the missing
header). -/
def ReduceMatrix (m : List (List CostMatrixInteger)) (cols : Nat) :
    Option (Int × List (List CostMatrixInteger)) :=
  match reduceRows m with
  | none => none
  | some (d1, m1) =>
    match reduceColsFrom (List.range cols) m1 with
    | none => none
    | some (d2, m2) => some (d1 + d2, m2)

/-- The finite values of a cell sequence. -/
def finiteVals (l : List CostMatrixInteger) : List Int :=
  l.filterMap (fun x => if x.infinite then none else some x.value)

/-- The spec's row/column minimum, "infinite cells counting as larger than
any finite value": the least finite value (`none` when every cell is
infinite). -/
def specMin (l : List CostMatrixInteger) : Option Int := (finiteVals l).min?

/-- A cell sequence with at least one finite cell. -/
def hasFinite (l : List CostMatrixInteger) : Prop := ∃ x ∈ l, x.infinite = false

instance (l : List CostMatrixInteger) : Decidable (hasFinite l) := by
  unfold hasFinite
  infer_instance

/-- Spec-side subtraction of a known finite amount `k` from a cell:
a no-op on an infinite cell. -/
def vsub (x : CostMatrixInteger) (k : Int) : CostMatrixInteger :=
  if x.infinite then x else { x with value := x.value - k }

/-- `sub` only reads the subtrahend's value. -/
theorem sub_eq_vsub (x mn : CostMatrixInteger) : sub x mn = vsub x mn.value := rfl

/-- The row-reduced matrix as the spec words it: each row minus its own
minimum. -/
def rowReducedSpec (m : List (List CostMatrixInteger)) : List (List CostMatrixInteger) :=
  m.map (fun r => r.map (fun x => vsub x ((specMin r).getD 0)))

/-- Subtract `ν j` from the cells of every column `j` satisfying `p`,
`j` counted from `c`. -/
def colSubIf (ν : Nat → Int) (p : Nat → Bool) : Nat → List CostMatrixInteger →
    List CostMatrixInteger
  | _, [] => []
  | j, x :: xs => (if p j then vsub x (ν j) else x) :: colSubIf ν p (j + 1) xs

/-- The column-reduced matrix as the spec words it: each column of the
row-reduced matrix minus that column's own minimum. -/
def colReducedSpec (m : List (List CostMatrixInteger)) : List (List CostMatrixInteger) :=
  m.map (colSubIf (fun j => (specMin (getCol m j)).getD 0) (fun _ => true) 0)

/-- `minElement` returns `none` exactly on the empty list (the C++
`min_element` returns the end iterator there). -/
theorem minElement_eq_none_iff (l : List CostMatrixInteger) :
    minElement l = none ↔ l = [] := by
  cases l <;> simp [minElement]

/-- If some cell of the list is finite, the minimum is finite: an infinite
cell is never selected unless every cell is infinite. -/
theorem minElement_finite {l : List CostMatrixInteger} {mn : CostMatrixInteger}
    (h : minElement l = some mn) {z : CostMatrixInteger} (hz : z ∈ l)
    (hzf : z.infinite = false) : mn.infinite = false := by
  obtain ⟨-, hmin⟩ := minElement_spec h
  by_contra hcon
  have hmn : mn.infinite = true := Bool.of_not_eq_false hcon
  have := hmin z hz
  unfold lt at this
  rw [hzf, hmn] at this
  simp at this

/-- The minimum's value is a lower bound on every finite cell's value. -/
theorem minElement_le {l : List CostMatrixInteger} {mn : CostMatrixInteger}
    (h : minElement l = some mn) (hmn : mn.infinite = false) :
    ∀ z ∈ l, z.infinite = false → mn.value ≤ z.value := by
  intro z hz hzf
  obtain ⟨-, hmin⟩ := minElement_spec h
  have := hmin z hz
  unfold lt at this
  rw [hzf, hmn] at this
  simp at this
  omega

instance : Std.Antisymm ((· : Int) ≤ ·) where
  antisymm h1 h2 := Int.le_antisymm h1 h2

/-- The code's minimum agrees with the spec's: when the selected minimum is
finite, its value is the least finite value of the sequence. -/
theorem specMin_of_minElement {l : List CostMatrixInteger} {mn : CostMatrixInteger}
    (h : minElement l = some mn) (hmn : mn.infinite = false) :
    specMin l = some mn.value := by
  unfold specMin finiteVals
  rw [List.min?_eq_some_iff Int.le_refl (fun a b => min_choice a b) (fun _ _ _ => le_min_iff)]
  obtain ⟨hmem, -⟩ := minElement_spec h
  constructor
  · exact List.mem_filterMap.mpr ⟨mn, hmem, by simp [hmn]⟩
  · intro b hb
    obtain ⟨z, hz, hzb⟩ := List.mem_filterMap.mp hb
    by_cases hzf : z.infinite = true
    · simp [hzf] at hzb
    · simp only [Bool.not_eq_true] at hzf
      simp only [hzf, Bool.false_eq_true, if_false, Option.some.injEq] at hzb
      subst hzb
      exact minElement_le h hmn z hz hzf

/-- Package lemma: on a sequence with a finite cell, `min_element` succeeds
and selects a finite cell whose value is the spec minimum, a lower bound on
every finite cell of the sequence. -/
theorem minElement_hasFinite {l : List CostMatrixInteger} (hf : hasFinite l) :
    ∃ mn, minElement l = some mn ∧ mn.infinite = false ∧ mn ∈ l ∧
      mn.value = (specMin l).getD 0 ∧
      ∀ z ∈ l, z.infinite = false → mn.value ≤ z.value := by
  obtain ⟨x, hx, hxf⟩ := hf
  have hne : l ≠ [] := by intro h; subst h; cases hx
  obtain ⟨mn, hmn⟩ : ∃ mn, minElement l = some mn := by
    cases hl : minElement l with
    | none => rw [minElement_eq_none_iff] at hl; exact absurd hl hne
    | some mn => exact ⟨mn, rfl⟩
  have hfin := minElement_finite hmn hx hxf
  refine ⟨mn, hmn, hfin, (minElement_spec hmn).1, ?_, minElement_le hmn hfin⟩
  rw [specMin_of_minElement hmn hfin]
  rfl

/-- Characterisation of one row-loop iteration with a finite cell present:
the decrement is the row's spec minimum and the row becomes the row minus
that minimum. -/
theorem reduceRow_char {r : List CostMatrixInteger} (hf : hasFinite r) :
    reduceRow r =
      some ((specMin r).getD 0, r.map (fun x => vsub x ((specMin r).getD 0))) := by
  obtain ⟨mn, hmn, hfin, -, hval, -⟩ := minElement_hasFinite hf
  unfold reduceRow
  rw [hmn]
  show (if mn.infinite = true then none else some (mn.value, subRow r mn)) = _
  rw [hfin]
  simp only [Bool.false_eq_true, if_false]
  rw [← hval]
  rfl

/-- A row with no finite cell makes the row loop fail its assertion. -/
theorem reduceRow_none {r : List CostMatrixInteger} (hnf : ¬ hasFinite r) :
    reduceRow r = none := by
  unfold reduceRow
  cases hmn : minElement r with
  | none => rfl
  | some mn =>
    obtain ⟨hmem, -⟩ := minElement_spec hmn
    have hmni : mn.infinite = true := by
      by_contra hc
      exact hnf ⟨mn, hmem, Bool.not_eq_true _ ▸ hc⟩
    show (if mn.infinite = true then none else some (mn.value, subRow r mn)) = none
    rw [hmni]
    rfl

/-- Characterisation of the whole row loop: the accumulated decrement is the
sum of the row minima, and the matrix becomes `rowReducedSpec`. -/
theorem reduceRows_char {m : List (List CostMatrixInteger)}
    (hf : ∀ r ∈ m, hasFinite r) :
    reduceRows m =
      some ((m.map (fun r => (specMin r).getD 0)).sum, rowReducedSpec m) := by
  induction m with
  | nil => rfl
  | cons r rs ih =>
    have h1 := reduceRow_char (hf r (List.mem_cons_self r rs))
    have h2 := ih (fun r' hr' => hf r' (List.mem_cons_of_mem _ hr'))
    unfold reduceRows
    rw [h1, h2]
    simp [rowReducedSpec]

/-- A matrix with an all-infinite row makes the row loop fail. -/
theorem reduceRows_none {m : List (List CostMatrixInteger)}
    {r : List CostMatrixInteger} (hr : r ∈ m) (hnf : ¬ hasFinite r) :
    reduceRows m = none := by
  induction m with
  | nil => cases hr
  | cons r0 rs ih =>
    unfold reduceRows
    rcases List.mem_cons.mp hr with hre | hrs
    · have h0 : reduceRow r0 = none := by rw [← hre]; exact reduceRow_none hnf
      rw [h0]
    · cases h0 : reduceRow r0 with
      | none => rfl
      | some p => rw [ih hrs]

/-- A successful row loop certifies that every row had a finite cell. -/
theorem reduceRows_some_hasFinite {m : List (List CostMatrixInteger)}
    {d : Int} {m1 : List (List CostMatrixInteger)}
    (h : reduceRows m = some (d, m1)) : ∀ r ∈ m, hasFinite r := by
  intro r hr
  by_contra hnf
  rw [reduceRows_none hr hnf] at h
  cases h

/-- `vsub` keeps the finiteness flag unchanged. -/
theorem infinite_vsub (x : CostMatrixInteger) (k : Int) : (vsub x k).infinite = x.infinite := by
  unfold vsub
  by_cases h : x.infinite <;> simp [h]

theorem length_colSubIf (ν : Nat → Int) (p : Nat → Bool) :
    ∀ (c : Nat) (l : List CostMatrixInteger), (colSubIf ν p c l).length = l.length := by
  intro c l
  induction l generalizing c with
  | nil => rfl
  | cons x xs ih => simp [colSubIf, ih]

theorem getElem_colSubIf (ν : Nat → Int) (p : Nat → Bool) :
    ∀ (c : Nat) (l : List CostMatrixInteger) (i : Nat) (h : i < l.length),
      (colSubIf ν p c l).get ⟨i, by rw [length_colSubIf]; exact h⟩ =
        if p (c + i) then vsub (l.get ⟨i, h⟩) (ν (c + i)) else l.get ⟨i, h⟩ := by
  intro c l
  induction l generalizing c with
  | nil => intro i h; cases h
  | cons x xs ih =>
    intro i h
    cases i with
    | zero => simp [colSubIf]
    | succ i =>
      have h' : i < xs.length := Nat.lt_of_succ_lt_succ h
      have := ih (c + 1) i h'
      simp only [colSubIf, List.get_cons_succ]
      rw [this]
      have harith : c + 1 + i = c + (i + 1) := by omega
      rw [harith]

/-- `colSubIf` only reads `ν` at columns where `p` holds. -/
theorem colSubIf_congr_nu {ν ν' : Nat → Int} {p : Nat → Bool}
    (h : ∀ j, p j = true → ν j = ν' j) :
    ∀ (c : Nat) (l : List CostMatrixInteger), colSubIf ν p c l = colSubIf ν' p c l := by
  intro c l
  induction l generalizing c with
  | nil => rfl
  | cons x xs ih =>
    simp only [colSubIf]
    rw [ih (c + 1)]
    by_cases hp : p c = true
    · rw [hp, if_pos rfl, if_pos rfl, h c hp]
    · rw [if_neg (by simp [hp]), if_neg (by simp [hp])]

/-- `colSubIf` only reads `p` at columns its traversal touches. -/
theorem colSubIf_congr_p {ν : Nat → Int} {p p' : Nat → Bool} :
    ∀ (c : Nat) (l : List CostMatrixInteger),
      (∀ i, c ≤ i → i < c + l.length → p i = p' i) →
      colSubIf ν p c l = colSubIf ν p' c l := by
  intro c l
  induction l generalizing c with
  | nil => intro _; rfl
  | cons x xs ih =>
    intro h
    simp only [colSubIf]
    rw [ih (c + 1) (fun i h1 h2 => h i (by omega) (by simp at h2 ⊢; omega))]
    rw [h c (Nat.le_refl c) (by simp)]

/-- `colSubIf` with an everywhere-false guard is the identity. -/
theorem colSubIf_false (ν : Nat → Int) {p : Nat → Bool} (hp : ∀ j, p j = false) :
    ∀ (c : Nat) (l : List CostMatrixInteger), colSubIf ν p c l = l := by
  intro c l
  induction l generalizing c with
  | nil => rfl
  | cons x xs ih => simp [colSubIf, hp, ih]

theorem length_getCol (m : List (List CostMatrixInteger)) (j : Nat) :
    (getCol m j).length = m.length := by simp [getCol]

theorem length_subCol (m : List (List CostMatrixInteger)) (j : Nat)
    (mn : CostMatrixInteger) : (subCol m j mn).length = m.length := by simp [subCol]

theorem Rect_subCol {m : List (List CostMatrixInteger)} {cols : Nat}
    (hrect : Rect m cols) (j : Nat) (mn : CostMatrixInteger) :
    Rect (subCol m j mn) cols := by
  intro r hr
  obtain ⟨r0, hr0, rfl⟩ := List.mem_map.mp hr
  rw [List.length_set]
  exact hrect r0 hr0

theorem Rect_rowReducedSpec {m : List (List CostMatrixInteger)} {cols : Nat}
    (hrect : Rect m cols) : Rect (rowReducedSpec m) cols := by
  intro r hr
  obtain ⟨r0, hr0, rfl⟩ := List.mem_map.mp hr
  rw [List.length_map]
  exact hrect r0 hr0

/-- Subtracting down column `j` leaves every other column untouched. -/
theorem getCol_subCol_ne (m : List (List CostMatrixInteger)) {j j' : Nat}
    (hne : j' ≠ j) (mn : CostMatrixInteger) :
    getCol (subCol m j mn) j' = getCol m j' := by
  unfold getCol subCol
  rw [List.map_map]
  apply List.map_congr_left
  intro r _
  simp only [Function.comp_apply]
  rw [List.getD_eq_getElem?_getD, List.getD_eq_getElem?_getD,
    List.getElem?_set_ne (fun h => hne h.symm)]
  exact (List.getD_eq_getElem?_getD r j' dummyCell).symm ▸ rfl

/-- Subtracting down column `j` maps `sub · mn` over that column's cells. -/
theorem getCol_subCol_self {m : List (List CostMatrixInteger)} {cols : Nat}
    (hrect : Rect m cols) {j : Nat} (hj : j < cols) (mn : CostMatrixInteger) :
    getCol (subCol m j mn) j = (getCol m j).map (fun x => sub x mn) := by
  unfold getCol subCol
  rw [List.map_map, List.map_map]
  apply List.map_congr_left
  intro r hr
  simp only [Function.comp_apply]
  have hjr : j < r.length := by rw [hrect r hr]; exact hj
  rw [List.getD_eq_getElem?_getD, List.getElem?_set_self hjr]
  simp [List.getD_eq_getElem?_getD]

/-- Exchanging the guarded per-column subtraction with a one-column `set`:
setting column `j` to its subtracted value and then subtracting the columns
in `js` equals subtracting the columns in `j :: js`. -/
theorem colSubIf_set {ν : Nat → Int} {js : List Nat} {j : Nat} (hj : j ∉ js)
    (r : List CostMatrixInteger) (hjr : j < r.length) :
    colSubIf ν (fun i => decide (i ∈ js)) 0
        (r.set j (vsub (r.getD j dummyCell) (ν j))) =
      colSubIf ν (fun i => decide (i ∈ j :: js)) 0 r := by
  apply List.ext_getElem
  · rw [length_colSubIf, length_colSubIf, List.length_set]
  · intro i h1 h2
    have hir : i < r.length := by rw [length_colSubIf] at h2; exact h2
    have his : i < (r.set j (vsub (r.getD j dummyCell) (ν j))).length := by
      rw [List.length_set]; exact hir
    have e1 := getElem_colSubIf ν (fun k => decide (k ∈ js)) 0
      (r.set j (vsub (r.getD j dummyCell) (ν j))) i his
    have e2 := getElem_colSubIf ν (fun k => decide (k ∈ j :: js)) 0 r i hir
    simp only [List.get_eq_getElem, Nat.zero_add] at e1 e2
    rw [e1, e2]
    by_cases hij : i = j
    · subst hij
      have h1 : decide (i ∈ js) = false := by simp [hj]
      have h2 : decide (i ∈ i :: js) = true := by simp
      rw [h1, h2]
      simp only [Bool.false_eq_true, if_false, if_pos rfl]
      rw [List.getElem_set_self (by rw [List.length_set]; exact hir)]
      congr 1
      rw [List.getD_eq_getElem?_getD, List.getElem?_eq_getElem hir]
      rfl
    · have h3 : decide (i ∈ j :: js) = decide (i ∈ js) := by
        simp [List.mem_cons, hij]
      rw [h3, List.getElem_set_ne (fun h => hij h.symm)]

/-- Lists whose cells have pointwise equal finiteness flags agree on
`hasFinite`. -/
theorem hasFinite_map_congr {α : Type} {l : List α}
    {f g : α → CostMatrixInteger}
    (h : ∀ x ∈ l, (f x).infinite = (g x).infinite) :
    hasFinite (l.map f) ↔ hasFinite (l.map g) := by
  unfold hasFinite
  simp only [List.mem_map]
  constructor
  · rintro ⟨y, ⟨x, hx, rfl⟩, hy⟩
    exact ⟨g x, ⟨x, hx, rfl⟩, (h x hx) ▸ hy⟩
  · rintro ⟨y, ⟨x, hx, rfl⟩, hy⟩
    exact ⟨f x, ⟨x, hx, rfl⟩, (h x hx).symm ▸ hy⟩

/-- A flag-preserving map across a row does not change the finiteness flag
of any positional lookup. -/
theorem infinite_getD_map {r : List CostMatrixInteger}
    {g : CostMatrixInteger → CostMatrixInteger}
    (hg : ∀ x, (g x).infinite = x.infinite) (j : Nat) :
    ((r.map g).getD j dummyCell).infinite = (r.getD j dummyCell).infinite := by
  rw [List.getD_eq_getElem?_getD, List.getD_eq_getElem?_getD, List.getElem?_map]
  cases r[j]? <;> simp [hg]

/-- Row reduction does not change which cells of a column are finite. -/
theorem hasFinite_getCol_rowReducedSpec (m : List (List CostMatrixInteger)) (j : Nat) :
    hasFinite (getCol (rowReducedSpec m) j) ↔ hasFinite (getCol m j) := by
  unfold getCol rowReducedSpec
  rw [List.map_map]
  apply hasFinite_map_congr
  intro r _
  simp only [Function.comp_apply]
  exact infinite_getD_map (fun x => infinite_vsub x _) j

/-- Characterisation of one column-loop iteration with a finite cell
present. -/
theorem reduceColStep_char {m : List (List CostMatrixInteger)} {j : Nat}
    (hf : hasFinite (getCol m j)) :
    ∃ mn, minElement (getCol m j) = some mn ∧ mn.infinite = false ∧
      mn.value = (specMin (getCol m j)).getD 0 ∧
      reduceColStep m j = some (mn.value, subCol m j mn) := by
  obtain ⟨mn, hmn, hfin, -, hval, -⟩ := minElement_hasFinite hf
  refine ⟨mn, hmn, hfin, hval, ?_⟩
  unfold reduceColStep
  rw [hmn]
  show (if mn.infinite = true then none else some (mn.value, subCol m j mn)) = _
  rw [hfin]
  rfl

/-- A column with no finite cell makes the column loop fail its assertion
(or, when the column is empty, dereference the end iterator). -/
theorem reduceColStep_none {m : List (List CostMatrixInteger)} {j : Nat}
    (hnf : ¬ hasFinite (getCol m j)) : reduceColStep m j = none := by
  unfold reduceColStep
  cases hmn : minElement (getCol m j) with
  | none => rfl
  | some mn =>
    obtain ⟨hmem, -⟩ := minElement_spec hmn
    have hmni : mn.infinite = true := by
      by_contra hc
      exact hnf ⟨mn, hmem, Bool.not_eq_true _ ▸ hc⟩
    show (if mn.infinite = true then none else some (mn.value, subCol m j mn)) = none
    rw [hmni]
    rfl

/-- Characterisation of the whole column loop over a duplicate-free list of
in-range column numbers whose columns each hold a finite cell: the
accumulated decrement is the sum of the column minima of the *incoming*
matrix, and every listed column is decreased by its own minimum. -/
theorem reduceColsFrom_char {cols : Nat} :
    ∀ (js : List Nat) (m : List (List CostMatrixInteger)),
      js.Nodup → Rect m cols → (∀ j ∈ js, j < cols) →
      (∀ j ∈ js, hasFinite (getCol m j)) →
      reduceColsFrom js m =
        some ((js.map (fun j => (specMin (getCol m j)).getD 0)).sum,
          m.map (colSubIf (fun j => (specMin (getCol m j)).getD 0)
            (fun i => decide (i ∈ js)) 0)) := by
  intro js
  induction js with
  | nil =>
    intro m _ _ _ _
    unfold reduceColsFrom
    have hid : m.map (colSubIf (fun j => (specMin (getCol m j)).getD 0)
        (fun i => decide (i ∈ ([] : List Nat))) 0) = m := by
      have : ∀ r ∈ m, colSubIf (fun j => (specMin (getCol m j)).getD 0)
          (fun i => decide (i ∈ ([] : List Nat))) 0 r = r :=
        fun r _ => colSubIf_false _ (fun k => by simp) 0 r
      rw [List.map_congr_left this]
      simp
    rw [hid]
    rfl
  | cons j js ih =>
    intro m hnodup hrect hlt hf
    have hjnotin : j ∉ js := (List.nodup_cons.mp hnodup).1
    have hjsnodup : js.Nodup := (List.nodup_cons.mp hnodup).2
    obtain ⟨mn, hmn, hfin, hval, hstep⟩ :=
      reduceColStep_char (hf j (List.mem_cons_self j js))
    set ν := fun j' => (specMin (getCol m j')).getD 0 with hν
    -- the matrix after the first iteration
    have hcolne : ∀ j' ∈ js, getCol (subCol m j mn) j' = getCol m j' := by
      intro j' hj'
      exact getCol_subCol_ne m (fun h => hjnotin (by rw [← h]; exact hj')) mn
    have hrect1 : Rect (subCol m j mn) cols := Rect_subCol hrect j mn
    have hf1 : ∀ j' ∈ js, hasFinite (getCol (subCol m j mn) j') := by
      intro j' hj'
      rw [hcolne j' hj']
      exact hf j' (List.mem_cons_of_mem _ hj')
    have hrec := ih (subCol m j mn) hjsnodup hrect1
      (fun j' hj' => hlt j' (List.mem_cons_of_mem _ hj')) hf1
    unfold reduceColsFrom
    rw [hstep]
    show (match reduceColsFrom js (subCol m j mn) with
      | none => none
      | some (ds, m2) => some (mn.value + ds, m2)) = _
    rw [hrec]
    have hsum : (js.map (fun j' => (specMin (getCol (subCol m j mn) j')).getD 0)).sum =
        (js.map ν).sum := by
      congr 1
      apply List.map_congr_left
      intro j' hj'
      rw [hcolne j' hj']
    have hmat : (subCol m j mn).map
          (colSubIf (fun j' => (specMin (getCol (subCol m j mn) j')).getD 0)
            (fun i => decide (i ∈ js)) 0) =
        m.map (colSubIf ν (fun i => decide (i ∈ j :: js)) 0) := by
      have hcongr : ∀ r ∈ subCol m j mn,
          colSubIf (fun j' => (specMin (getCol (subCol m j mn) j')).getD 0)
            (fun i => decide (i ∈ js)) 0 r = colSubIf ν (fun i => decide (i ∈ js)) 0 r := by
        intro r _
        apply colSubIf_congr_nu
        intro j' hj'
        have : j' ∈ js := of_decide_eq_true hj'
        rw [hcolne j' this]
      rw [List.map_congr_left hcongr]
      have hsubcol : subCol m j mn =
          m.map (fun r => r.set j (vsub (r.getD j dummyCell) (ν j))) := by
        unfold subCol
        simp only [sub_eq_vsub, hval]
      rw [hsubcol, List.map_map]
      apply List.map_congr_left
      intro r hr
      simp only [Function.comp_apply]
      exact colSubIf_set hjnotin r
        (by rw [hrect r hr]; exact hlt j (List.mem_cons_self j js))
    rw [hsum, hmat, hval]
    simp

/-- A column with no finite cell anywhere in the worklist makes the column
loop fail before finishing. -/
theorem reduceColsFrom_none :
    ∀ (js : List Nat) (m : List (List CostMatrixInteger)),
      (∃ j ∈ js, ¬ hasFinite (getCol m j)) → reduceColsFrom js m = none := by
  intro js
  induction js with
  | nil => rintro m ⟨j, hj, -⟩; cases hj
  | cons j0 js ih =>
    rintro m ⟨j, hj, hnf⟩
    unfold reduceColsFrom
    by_cases h0 : hasFinite (getCol m j0)
    · obtain ⟨mn, -, -, -, hstep⟩ := reduceColStep_char h0
      rw [hstep]
      have hne : j ≠ j0 := fun h => hnf (by rw [h]; exact h0)
      have hjs : j ∈ js := by
        rcases List.mem_cons.mp hj with h | h
        · exact absurd h hne
        · exact h
      show (match reduceColsFrom js (subCol m j0 mn) with
        | none => none
        | some (ds, m2) => some (mn.value + ds, m2)) = none
      rw [ih (subCol m j0 mn) ⟨j, hjs, by rw [getCol_subCol_ne m hne mn]; exact hnf⟩]
    · rw [reduceColStep_none h0]

/-- A successful column loop certifies every listed column held a finite
cell when the loop started. -/
theorem reduceColsFrom_some_hasFinite {js : List Nat}
    {m : List (List CostMatrixInteger)} {d : Int}
    {m2 : List (List CostMatrixInteger)}
    (h : reduceColsFrom js m = some (d, m2)) :
    ∀ j ∈ js, hasFinite (getCol m j) := by
  intro j hj
  by_contra hnf
  rw [reduceColsFrom_none js m ⟨j, hj, hnf⟩] at h
  cases h

/-- Dissection of a successful `ReduceMatrix` call into its two loops. -/
theorem ReduceMatrix_some_parts {m : List (List CostMatrixInteger)} {cols : Nat}
    {d : Int} {m2 : List (List CostMatrixInteger)}
    (h : ReduceMatrix m cols = some (d, m2)) :
    ∃ d1 m1 d2, reduceRows m = some (d1, m1) ∧
      reduceColsFrom (List.range cols) m1 = some (d2, m2) ∧ d = d1 + d2 := by
  unfold ReduceMatrix at h
  cases hr : reduceRows m with
  | none => rw [hr] at h; cases h
  | some p =>
    obtain ⟨d1, m1⟩ := p
    simp only [hr] at h
    cases hc : reduceColsFrom (List.range cols) m1 with
    | none => rw [hc] at h; cases h
    | some q =>
      obtain ⟨d2, m2'⟩ := q
      simp only [hc, Option.some.injEq, Prod.mk.injEq] at h
      refine ⟨d1, m1, d2, rfl, ?_, h.1.symm⟩
      rw [hc, h.2]

/-- Full characterisation of `ReduceMatrix` under the reduction
precondition: it succeeds, the total is the sum of the row minima plus the
sum of the column minima of the row-reduced matrix, and the resulting
matrix is the row-reduced matrix further reduced by columns. -/
theorem ReduceMatrix_char {m : List (List CostMatrixInteger)} {cols : Nat}
    (hrect : Rect m cols) (hrows : ∀ r ∈ m, hasFinite r)
    (hcols : ∀ j, j < cols → hasFinite (getCol m j)) :
    ReduceMatrix m cols =
      some ((m.map (fun r => (specMin r).getD 0)).sum +
        ((List.range cols).map
          (fun j => (specMin (getCol (rowReducedSpec m) j)).getD 0)).sum,
        colReducedSpec (rowReducedSpec m)) := by
  unfold ReduceMatrix
  rw [reduceRows_char hrows]
  have hchar := @reduceColsFrom_char cols (List.range cols) (rowReducedSpec m)
    (List.nodup_range cols) (Rect_rowReducedSpec hrect)
    (fun j hj => List.mem_range.mp hj)
    (fun j hj => (hasFinite_getCol_rowReducedSpec m j).mpr
      (hcols j (List.mem_range.mp hj)))
  simp only [hchar]
  have hmat : (rowReducedSpec m).map
      (colSubIf (fun j => (specMin (getCol (rowReducedSpec m) j)).getD 0)
        (fun i => decide (i ∈ List.range cols)) 0) =
      colReducedSpec (rowReducedSpec m) := by
    unfold colReducedSpec
    apply List.map_congr_left
    intro r hr
    apply colSubIf_congr_p
    intro i hi1 hi2
    have hlen : r.length = cols := Rect_rowReducedSpec hrect r hr
    simp only [Nat.zero_add, hlen] at hi2
    simp [List.mem_range, hi2]
  rw [hmat]

/-- `ReduceMatrix` succeeds exactly when every condensed row and every
condensed column holds at least one finite cell:  otherwise one of its
assertions fires. -/
theorem ReduceMatrix_isSome_iff {m : List (List CostMatrixInteger)} {cols : Nat}
    (hrect : Rect m cols) :
    (ReduceMatrix m cols).isSome = true ↔
      ((∀ r ∈ m, hasFinite r) ∧ ∀ j, j < cols → hasFinite (getCol m j)) := by
  constructor
  · intro h
    obtain ⟨p, hp⟩ := Option.isSome_iff_exists.mp h
    obtain ⟨d, m2⟩ := p
    obtain ⟨d1, m1, d2, hr, hc, -⟩ := ReduceMatrix_some_parts hp
    have hrows := reduceRows_some_hasFinite hr
    refine ⟨hrows, ?_⟩
    have hm1 : m1 = rowReducedSpec m := by
      have hchar := reduceRows_char hrows
      rw [hr] at hchar
      simp only [Option.some.injEq, Prod.mk.injEq] at hchar
      exact hchar.2
    intro j hj
    have := reduceColsFrom_some_hasFinite hc j (List.mem_range.mpr hj)
    rw [hm1] at this
    exact (hasFinite_getCol_rowReducedSpec m j).mp this
  · rintro ⟨hrows, hcols⟩
    rw [ReduceMatrix_char hrect hrows hcols]
    rfl

/-- A cell sequence containing a (finite) cell of value `0`. -/
def hasZero (l : List CostMatrixInteger) : Prop :=
  ∃ x ∈ l, x.infinite = false ∧ x.value = 0

instance (l : List CostMatrixInteger) : Decidable (hasZero l) := by
  unfold hasZero
  infer_instance

/-- Every finite cell of the sequence has a non-negative value. -/
def allNonneg (l : List CostMatrixInteger) : Prop :=
  ∀ x ∈ l, x.infinite = false → 0 ≤ x.value

/-- The cell of the condensed storage at condensed position `(i, j)`. -/
def cellAt (m : List (List CostMatrixInteger)) (i j : Nat) : CostMatrixInteger :=
  (m.getD i []).getD j dummyCell

/-- Subtracting zero is the identity. -/
theorem vsub_zero (x : CostMatrixInteger) : vsub x 0 = x := by
  rcases x with ⟨v, i, e⟩
  unfold vsub
  cases i <;> simp

/-- A sequence holding a zero cell among non-negative finite cells has spec
minimum zero. -/
theorem specMin_zero {l : List CostMatrixInteger} (hz : hasZero l)
    (hnn : allNonneg l) : specMin l = some 0 := by
  obtain ⟨x, hx, hxf, hxv⟩ := hz
  unfold specMin finiteVals
  rw [List.min?_eq_some_iff Int.le_refl (fun a b => min_choice a b) (fun _ _ _ => le_min_iff)]
  constructor
  · exact List.mem_filterMap.mpr ⟨x, hx, by simp [hxf, hxv]⟩
  · intro b hb
    obtain ⟨z, hz', hzb⟩ := List.mem_filterMap.mp hb
    by_cases hzf : z.infinite = true
    · simp [hzf] at hzb
    · simp only [Bool.not_eq_true] at hzf
      simp only [hzf, Bool.false_eq_true, if_false, Option.some.injEq] at hzb
      subst hzb
      exact hnn z hz' hzf

/-- Subtracting a sequence's minimum from each of its cells produces a zero
cell. -/
theorem vsubMin_hasZero {l : List CostMatrixInteger} (hf : hasFinite l) :
    hasZero (l.map (fun x => vsub x ((specMin l).getD 0))) := by
  obtain ⟨mn, -, hfin, hmem, hval, -⟩ := minElement_hasFinite hf
  refine ⟨vsub mn ((specMin l).getD 0), List.mem_map.mpr ⟨mn, hmem, rfl⟩, ?_, ?_⟩
  · rw [infinite_vsub]; exact hfin
  · rw [← hval]
    simp [vsub, hfin]

/-- Subtracting a sequence's minimum from each of its cells leaves every
finite cell non-negative. -/
theorem vsubMin_allNonneg {l : List CostMatrixInteger} (hf : hasFinite l) :
    allNonneg (l.map (fun x => vsub x ((specMin l).getD 0))) := by
  obtain ⟨mn, -, hfin, -, hval, hle⟩ := minElement_hasFinite hf
  intro x' hx' hx'f
  obtain ⟨x, hx, rfl⟩ := List.mem_map.mp hx'
  rw [infinite_vsub] at hx'f
  have := hle x hx hx'f
  rw [← hval]
  simp [vsub, hx'f]
  omega

/-- Every row of the row-reduced matrix holds a zero and is non-negative. -/
theorem rowReducedSpec_rows {m : List (List CostMatrixInteger)}
    (hf : ∀ r ∈ m, hasFinite r) :
    ∀ r' ∈ rowReducedSpec m, hasZero r' ∧ allNonneg r' := by
  intro r' hr'
  obtain ⟨r, hr, rfl⟩ := List.mem_map.mp hr'
  exact ⟨vsubMin_hasZero (hf r hr), vsubMin_allNonneg (hf r hr)⟩

/-- A column's cells are cells of the rows, so row-wise non-negativity
carries to columns. -/
theorem allNonneg_getCol {m : List (List CostMatrixInteger)} {cols : Nat}
    (hrect : Rect m cols) (hnn : ∀ r ∈ m, allNonneg r) {j : Nat} (hj : j < cols) :
    allNonneg (getCol m j) := by
  intro x hx hxf
  obtain ⟨r, hr, rfl⟩ := List.mem_map.mp hx
  have hjr : j < r.length := by rw [hrect r hr]; exact hj
  rw [List.getD_eq_getElem?_getD, List.getElem?_eq_getElem hjr] at hxf ⊢
  exact hnn r hr _ (List.getElem_mem hjr) hxf

/-- A cell of a row is a cell of its column. -/
theorem getD_mem_getCol {m : List (List CostMatrixInteger)}
    {r : List CostMatrixInteger} (hr : r ∈ m) (j : Nat) :
    r.getD j dummyCell ∈ getCol m j :=
  List.mem_map.mpr ⟨r, hr, rfl⟩

/-- Positional lookup through the guarded per-column subtraction. -/
theorem getD_colSubIf (ν : Nat → Int) (p : Nat → Bool) (r : List CostMatrixInteger)
    {j : Nat} (hjr : j < r.length) :
    (colSubIf ν p 0 r).getD j dummyCell =
      if p j then vsub (r.getD j dummyCell) (ν j) else r.getD j dummyCell := by
  have hlen : j < (colSubIf ν p 0 r).length := by rw [length_colSubIf]; exact hjr
  rw [List.getD_eq_getElem?_getD, List.getElem?_eq_getElem hlen]
  have hg := getElem_colSubIf ν p 0 r j hjr
  simp only [List.get_eq_getElem, Nat.zero_add] at hg
  rw [Option.getD_some, hg]
  rw [List.getD_eq_getElem?_getD, List.getElem?_eq_getElem hjr]
  rfl

/-- Column `j` of the column-reduced matrix is column `j` minus its own
minimum. -/
theorem getCol_colReducedSpec {m : List (List CostMatrixInteger)} {cols : Nat}
    (hrect : Rect m cols) {j : Nat} (hj : j < cols) :
    getCol (colReducedSpec m) j =
      (getCol m j).map (fun x => vsub x ((specMin (getCol m j)).getD 0)) := by
  simp only [colReducedSpec, getCol, List.map_map]
  apply List.map_congr_left
  intro r hr
  simp only [Function.comp_apply]
  rw [getD_colSubIf _ _ r (by rw [hrect r hr]; exact hj)]
  rfl

theorem Rect_colReducedSpec {m : List (List CostMatrixInteger)} {cols : Nat}
    (hrect : Rect m cols) : Rect (colReducedSpec m) cols := by
  intro r hr
  obtain ⟨r0, hr0, rfl⟩ := List.mem_map.mp hr
  rw [length_colSubIf]
  exact hrect r0 hr0

/-- A zero cell is in particular a finite cell. -/
theorem hasFinite_of_hasZero {l : List CostMatrixInteger} (h : hasZero l) :
    hasFinite l := by
  obtain ⟨x, hx, hxf, -⟩ := h
  exact ⟨x, hx, hxf⟩

/-- Column reduction keeps every row's zero cell and keeps every finite cell
non-negative. -/
theorem colReducedSpec_rows {m : List (List CostMatrixInteger)} {cols : Nat}
    (hrect : Rect m cols)
    (hrows : ∀ r ∈ m, hasZero r ∧ allNonneg r)
    (hcolsf : ∀ j, j < cols → hasFinite (getCol m j)) :
    ∀ r' ∈ colReducedSpec m, hasZero r' ∧ allNonneg r' := by
  intro r' hr'
  obtain ⟨r, hr, rfl⟩ := List.mem_map.mp hr'
  have hlen : r.length = cols := hrect r hr
  set ν := fun j => (specMin (getCol m j)).getD 0 with hν
  have hν_le : ∀ c, c < cols → ∀ x ∈ getCol m c, x.infinite = false →
      ν c ≤ x.value := by
    intro c hc x hx hxf
    obtain ⟨mn, -, hfin, -, hval, hle⟩ := minElement_hasFinite (hcolsf c hc)
    rw [hν]
    simp only
    rw [← hval]
    exact hle x hx hxf
  have hν_nonneg : ∀ c, c < cols → 0 ≤ ν c := by
    intro c hc
    obtain ⟨mn, -, hfin, hmem, hval, -⟩ := minElement_hasFinite (hcolsf c hc)
    have := allNonneg_getCol hrect (fun r0 hr0 => (hrows r0 hr0).2) hc mn hmem hfin
    rw [hν]
    simp only
    rw [← hval]
    exact this
  constructor
  · -- the row's zero cell survives: its column's minimum is forced to 0
    obtain ⟨x, hx, hxf, hxv⟩ := (hrows r hr).1
    obtain ⟨c, hc, hxe⟩ := List.mem_iff_getElem.mp hx
    have hccols : c < cols := by rw [← hlen]; exact hc
    have hgd : r.getD c dummyCell = x := by
      rw [List.getD_eq_getElem?_getD, List.getElem?_eq_getElem hc, Option.getD_some, hxe]
    have hxcol : x ∈ getCol m c := by rw [← hgd]; exact getD_mem_getCol hr c
    have hνc : ν c = 0 := by
      have h1 := hν_le c hccols x hxcol hxf
      have h2 := hν_nonneg c hccols
      omega
    have hcr' : c < (colSubIf ν (fun _ => true) 0 r).length := by
      rw [length_colSubIf]; exact hc
    refine ⟨(colSubIf ν (fun _ => true) 0 r).getD c dummyCell, ?_, ?_⟩
    · rw [List.getD_eq_getElem?_getD, List.getElem?_eq_getElem hcr', Option.getD_some]
      exact List.getElem_mem hcr'
    · rw [getD_colSubIf ν _ r hc, if_pos rfl, hνc, vsub_zero, hgd]
      exact ⟨hxf, hxv⟩
  · -- non-negativity survives
    intro x' hx' hx'f
    obtain ⟨c, hc, hxe⟩ := List.mem_iff_getElem.mp hx'
    rw [length_colSubIf] at hc
    have hccols : c < cols := by rw [← hlen]; exact hc
    have hval' : x' = vsub (r.getD c dummyCell) (ν c) := by
      rw [← hxe]
      have := getD_colSubIf ν (fun _ => true) r hc
      rw [if_pos rfl] at this
      rw [← this, List.getD_eq_getElem?_getD,
        List.getElem?_eq_getElem (by rw [length_colSubIf]; exact hc), Option.getD_some]
    have hcf : (r.getD c dummyCell).infinite = false := by
      rw [hval', infinite_vsub] at hx'f
      exact hx'f
    have hcolmem : r.getD c dummyCell ∈ getCol m c := getD_mem_getCol hr c
    have h1 := hν_le c hccols _ hcolmem hcf
    rw [hval']
    unfold vsub
    rw [hcf]
    simp
    rw [List.getD_eq_getElem?_getD] at h1
    omega

/-- Column reduction gives every column a zero cell. -/
theorem colReducedSpec_cols {m : List (List CostMatrixInteger)} {cols : Nat}
    (hrect : Rect m cols)
    (hcolsf : ∀ j, j < cols → hasFinite (getCol m j)) :
    ∀ j, j < cols → hasZero (getCol (colReducedSpec m) j) := by
  intro j hj
  rw [getCol_colReducedSpec hrect hj]
  exact vsubMin_hasZero (hcolsf j hj)

/-- State of the matrix after a successful `ReduceMatrix` call: still
rectangular, every row holds a zero and is non-negative, and every column
holds a zero. -/
theorem ReduceMatrix_post {m : List (List CostMatrixInteger)} {cols : Nat}
    {d : Int} {m2 : List (List CostMatrixInteger)} (hrect : Rect m cols)
    (h : ReduceMatrix m cols = some (d, m2)) :
    Rect m2 cols ∧ (∀ r ∈ m2, hasZero r ∧ allNonneg r) ∧
      (∀ j, j < cols → hasZero (getCol m2 j)) := by
  have hcond := (ReduceMatrix_isSome_iff hrect).mp (by rw [h]; rfl)
  have hchar := ReduceMatrix_char hrect hcond.1 hcond.2
  rw [h] at hchar
  simp only [Option.some.injEq, Prod.mk.injEq] at hchar
  have hm2 : m2 = colReducedSpec (rowReducedSpec m) := hchar.2
  have hrect1 : Rect (rowReducedSpec m) cols := Rect_rowReducedSpec hrect
  have hrows1 := rowReducedSpec_rows hcond.1
  have hcols1 : ∀ j, j < cols → hasFinite (getCol (rowReducedSpec m) j) :=
    fun j hj => (hasFinite_getCol_rowReducedSpec m j).mpr (hcond.2 j hj)
  subst hm2
  exact ⟨Rect_colReducedSpec hrect1,
    colReducedSpec_rows hrect1 hrows1 hcols1,
    colReducedSpec_cols hrect1 hcols1⟩

/-- `colSubIf` with an everywhere-zero decrement is the identity. -/
theorem colSubIf_zero {ν : Nat → Int} {p : Nat → Bool} :
    ∀ (c : Nat) (l : List CostMatrixInteger),
      (∀ i, c ≤ i → i < c + l.length → ν i = 0) → colSubIf ν p c l = l := by
  intro c l
  induction l generalizing c with
  | nil => intro _; rfl
  | cons x xs ih =>
    intro h
    simp only [colSubIf]
    rw [ih (c + 1) (fun i h1 h2 => h i (by omega) (by simp at h2 ⊢; omega))]
    rw [h c (Nat.le_refl c) (by simp)]
    by_cases hp : p c = true <;> simp [hp, vsub_zero]

/-- Reducing a matrix in the post-reduction state returns a zero increment
and leaves the matrix unchanged. -/
theorem ReduceMatrix_again {m2 : List (List CostMatrixInteger)} {cols : Nat}
    (hrect2 : Rect m2 cols)
    (hrows : ∀ r ∈ m2, hasZero r ∧ allNonneg r)
    (hcols : ∀ j, j < cols → hasZero (getCol m2 j)) :
    ReduceMatrix m2 cols = some (0, m2) := by
  have hrowsf : ∀ r ∈ m2, hasFinite r :=
    fun r hr => hasFinite_of_hasZero (hrows r hr).1
  have hcolsf : ∀ j, j < cols → hasFinite (getCol m2 j) :=
    fun j hj => hasFinite_of_hasZero (hcols j hj)
  have hspecrow : ∀ r ∈ m2, specMin r = some 0 :=
    fun r hr => specMin_zero (hrows r hr).1 (hrows r hr).2
  have hspeccol : ∀ j, j < cols → specMin (getCol m2 j) = some 0 :=
    fun j hj => specMin_zero (hcols j hj)
      (allNonneg_getCol hrect2 (fun r hr => (hrows r hr).2) hj)
  have hrowred : rowReducedSpec m2 = m2 := by
    unfold rowReducedSpec
    have : ∀ r ∈ m2, r.map (fun x => vsub x ((specMin r).getD 0)) = r := by
      intro r hr
      rw [hspecrow r hr]
      simp only [Option.getD_some]
      rw [List.map_congr_left (fun x _ => vsub_zero x)]
      simp
    rw [List.map_congr_left this]
    simp
  have hcolred : colReducedSpec m2 = m2 := by
    unfold colReducedSpec
    have : ∀ r ∈ m2, colSubIf (fun j => (specMin (getCol m2 j)).getD 0)
        (fun _ => true) 0 r = r := by
      intro r hr
      apply colSubIf_zero
      intro i h1 h2
      simp only [Nat.zero_add] at h2
      rw [hrect2 r hr] at h2
      rw [hspeccol i h2]
      rfl
    rw [List.map_congr_left this]
    simp
  rw [ReduceMatrix_char hrect2 hrowsf hcolsf, hrowred, hcolred]
  have hsum1 : (m2.map (fun r => (specMin r).getD 0)).sum = 0 := by
    apply List.sum_eq_zero
    intro x hx
    obtain ⟨r, hr, rfl⟩ := List.mem_map.mp hx
    rw [hspecrow r hr]
    rfl
  have hsum2 : ((List.range cols).map
      (fun j => (specMin (getCol m2 j)).getD 0)).sum = 0 := by
    apply List.sum_eq_zero
    intro x hx
    obtain ⟨j, hj, rfl⟩ := List.mem_map.mp hx
    rw [hspeccol j (List.mem_range.mp hj)]
    rfl
  rw [hsum1, hsum2]
  rfl

/-- Positional finiteness flags through the guarded per-column
subtraction. -/
theorem infinite_getD_colSubIf (ν : Nat → Int) (p : Nat → Bool)
    (r : List CostMatrixInteger) (j : Nat) :
    ((colSubIf ν p 0 r).getD j dummyCell).infinite = (r.getD j dummyCell).infinite := by
  by_cases hj : j < r.length
  · rw [getD_colSubIf ν p r hj]
    by_cases hp : p j = true
    · rw [if_pos hp, infinite_vsub]
    · rw [if_neg hp]
  · have h1 : (colSubIf ν p 0 r).getD j dummyCell = dummyCell := by
      rw [List.getD_eq_getElem?_getD, List.getElem?_eq_none]
      · rfl
      · rw [length_colSubIf]; omega
    have h2 : r.getD j dummyCell = dummyCell := by
      rw [List.getD_eq_getElem?_getD, List.getElem?_eq_none]
      · rfl
      · omega
    rw [h1, h2]

/-- A row lookup through a map that sends the empty row to the empty row. -/
theorem getD_map_rows {f : List CostMatrixInteger → List CostMatrixInteger}
    (hf : f [] = []) (m : List (List CostMatrixInteger)) (i : Nat) :
    (m.map f).getD i [] = f (m.getD i []) := by
  rw [List.getD_eq_getElem?_getD, List.getElem?_map,
    List.getD_eq_getElem?_getD m i []]
  cases m[i]? <;> simp [hf]

/-- Row reduction preserves every cell's finiteness flag. -/
theorem cellAt_rowReducedSpec_infinite (m : List (List CostMatrixInteger))
    (i j : Nat) :
    (cellAt (rowReducedSpec m) i j).infinite = (cellAt m i j).infinite := by
  unfold cellAt rowReducedSpec
  rw [getD_map_rows rfl m i]
  exact infinite_getD_map (fun x => infinite_vsub x _) j

/-- Column reduction preserves every cell's finiteness flag. -/
theorem cellAt_colReducedSpec_infinite (m : List (List CostMatrixInteger))
    (i j : Nat) :
    (cellAt (colReducedSpec m) i j).infinite = (cellAt m i j).infinite := by
  unfold cellAt colReducedSpec
  rw [getD_map_rows rfl m i]
  exact infinite_getD_colSubIf _ _ (m.getD i []) j

/-- A successful `ReduceMatrix` call never changes any cell's finiteness
flag: reduction never raises an infinite cell back to finite (nor marks a
finite cell infinite). -/
theorem ReduceMatrix_infinite_preserved {m : List (List CostMatrixInteger)}
    {cols : Nat} {d : Int} {m2 : List (List CostMatrixInteger)}
    (hrect : Rect m cols) (h : ReduceMatrix m cols = some (d, m2)) :
    ∀ i j, (cellAt m2 i j).infinite = (cellAt m i j).infinite := by
  have hcond := (ReduceMatrix_isSome_iff hrect).mp (by rw [h]; rfl)
  have hchar := ReduceMatrix_char hrect hcond.1 hcond.2
  rw [h] at hchar
  simp only [Option.some.injEq, Prod.mk.injEq] at hchar
  intro i j
  rw [hchar.2, cellAt_colReducedSpec_infinite, cellAt_rowReducedSpec_infinite]

/-- `n` successive `ReduceMatrix` calls, each feeding the next the matrix it
produced (`none` as soon as one call fails an assertion). -/
def ReduceMatrixN (cols : Nat) : Nat → List (List CostMatrixInteger) →
    Option (List (List CostMatrixInteger))
  | 0, m => some m
  | n + 1, m =>
    match ReduceMatrix m cols with
    | none => none
    | some (_, m2) => ReduceMatrixN cols n m2

/-- A successful `ReduceMatrix` call keeps the matrix rectangular. -/
theorem ReduceMatrix_Rect {m : List (List CostMatrixInteger)} {cols : Nat}
    {d : Int} {m2 : List (List CostMatrixInteger)} (hrect : Rect m cols)
    (h : ReduceMatrix m cols = some (d, m2)) : Rect m2 cols :=
  (ReduceMatrix_post hrect h).1

/-- Any number of successive `ReduceMatrix` calls preserves every cell's
finiteness flag. -/
theorem ReduceMatrixN_infinite_preserved {cols : Nat} :
    ∀ (n : Nat) (m m2 : List (List CostMatrixInteger)), Rect m cols →
      ReduceMatrixN cols n m = some m2 →
      ∀ i j, (cellAt m2 i j).infinite = (cellAt m i j).infinite := by
  intro n
  induction n with
  | zero =>
    intro m m2 _ h i j
    simp only [ReduceMatrixN, Option.some.injEq] at h
    rw [h]
  | succ n ih =>
    intro m m2 hrect h i j
    unfold ReduceMatrixN at h
    cases h1 : ReduceMatrix m cols with
    | none => rw [h1] at h; cases h
    | some p =>
      obtain ⟨d, m1⟩ := p
      simp only [h1] at h
      rw [ih m1 m2 (ReduceMatrix_Rect hrect h1) h i j,
        ReduceMatrix_infinite_preserved hrect h1 i j]

/-- An infinite minimum means the whole sequence was infinite: the
`min_element` comparison never selects an infinite cell over a finite
one. -/
theorem minElement_infinite_all {l : List CostMatrixInteger}
    {mn : CostMatrixInteger} (h : minElement l = some mn)
    (hmn : mn.infinite = true) : ∀ z ∈ l, z.infinite = true := by
  intro z hz
  by_contra hc
  have hzf : z.infinite = false := Bool.not_eq_true _ ▸ hc
  have := minElement_finite h hz hzf
  rw [this] at hmn
  cases hmn

/-- The include-edge pass of the constructor (cost_matrix.cpp:28-33): start
from `vector<bool> row_available(N, true)` and clear the origin of every
include edge. -/
def rowAvailability (includeEdges : List Edge) (numVertices : Nat) : List Bool :=
  includeEdges.foldl (fun av e => av.set e.u false) (List.replicate numVertices true)

/-- The include-edge pass for columns (cost_matrix.cpp:28-33): clear the
destination of every include edge. -/
def columnAvailability (includeEdges : List Edge) (numVertices : Nat) : List Bool :=
  includeEdges.foldl (fun av e => av.set e.v false) (List.replicate numVertices true)

/-- The loop body of `MakeVectorMapping` (cost_matrix.cpp:197-207), with the
running original index and the running condensed index as accumulators. -/
def makeVectorMappingAux : List Bool → Nat → Nat → List (Nat × Nat)
  | [], _, _ => []
  | a :: rest, cell, next =>
    if a then (cell, next) :: makeVectorMappingAux rest (cell + 1) (next + 1)
    else makeVectorMappingAux rest (cell + 1) next

/-- `MakeVectorMapping` (cost_matrix.cpp:197-207): map each available
original row/column number to the next condensed matrix row/column number,
scanning original numbers in increasing order. -/
def MakeVectorMapping (available : List Bool) : List (Nat × Nat) :=
  makeVectorMappingAux available 0 0

/-- The number of `true` entries of an availability vector. -/
def countTrue (av : List Bool) : Nat := av.countP (fun b => b)

theorem getD_set_bool (av : List Bool) (k i : Nat) :
    (av.set k false).getD i false = (av.getD i false && !(decide (k = i))) := by
  by_cases hk : k = i
  · subst hk
    by_cases hlt : k < av.length
    · rw [List.getD_eq_getElem?_getD, List.getElem?_set_self hlt]
      simp
    · rw [List.getD_eq_getElem?_getD, List.getD_eq_getElem?_getD,
        List.getElem?_eq_none (by rw [List.length_set]; omega),
        List.getElem?_eq_none (by omega)]
      simp
  · rw [List.getD_eq_getElem?_getD, List.getElem?_set_ne hk,
      ← List.getD_eq_getElem?_getD]
    simp [hk]

/-- Net effect of the include-edge loop on one availability entry. -/
theorem getD_availability_foldl (f : Edge → Nat) :
    ∀ (es : List Edge) (av : List Bool) (i : Nat),
      (es.foldl (fun a e => a.set (f e) false) av).getD i false =
        (av.getD i false && !(es.any (fun e => decide (f e = i)))) := by
  intro es
  induction es with
  | nil => intro av i; simp
  | cons e es ih =>
    intro av i
    simp only [List.foldl_cons, List.any_cons]
    rw [ih (av.set (f e) false) i, getD_set_bool]
    simp [Bool.and_assoc]

theorem length_availability_foldl (f : Edge → Nat) :
    ∀ (es : List Edge) (av : List Bool),
      (es.foldl (fun a e => a.set (f e) false) av).length = av.length := by
  intro es
  induction es with
  | nil => intro av; rfl
  | cons e es ih =>
    intro av
    simp only [List.foldl_cons]
    rw [ih (av.set (f e) false), List.length_set]

theorem rowAvailability_getD (includeEdges : List Edge) (N i : Nat) :
    (rowAvailability includeEdges N).getD i false =
      (decide (i < N) && !(includeEdges.any (fun e => decide (e.u = i)))) := by
  unfold rowAvailability
  rw [getD_availability_foldl Edge.u includeEdges _ i]
  congr 1
  rw [List.getD_eq_getElem?_getD, List.getElem?_replicate]
  by_cases h : i < N <;> simp [h]

theorem columnAvailability_getD (includeEdges : List Edge) (N i : Nat) :
    (columnAvailability includeEdges N).getD i false =
      (decide (i < N) && !(includeEdges.any (fun e => decide (e.v = i)))) := by
  unfold columnAvailability
  rw [getD_availability_foldl Edge.v includeEdges _ i]
  congr 1
  rw [List.getD_eq_getElem?_getD, List.getElem?_replicate]
  by_cases h : i < N <;> simp [h]

theorem length_rowAvailability (includeEdges : List Edge) (N : Nat) :
    (rowAvailability includeEdges N).length = N := by
  unfold rowAvailability
  rw [length_availability_foldl Edge.u, List.length_replicate]

theorem length_columnAvailability (includeEdges : List Edge) (N : Nat) :
    (columnAvailability includeEdges N).length = N := by
  unfold columnAvailability
  rw [length_availability_foldl Edge.v, List.length_replicate]

theorem makeVectorMappingAux_fst_shift :
    ∀ (av : List Bool) (c n : Nat),
      makeVectorMappingAux av (c + 1) n =
        (makeVectorMappingAux av c n).map (fun p => (p.1 + 1, p.2)) := by
  intro av
  induction av with
  | nil => intro c n; rfl
  | cons a rest ih =>
    intro c n
    cases a with
    | true => simp [makeVectorMappingAux, ih (c + 1)]
    | false => simp [makeVectorMappingAux, ih (c + 1)]

theorem makeVectorMappingAux_snd_shift :
    ∀ (av : List Bool) (c n : Nat),
      makeVectorMappingAux av c (n + 1) =
        (makeVectorMappingAux av c n).map (fun p => (p.1, p.2 + 1)) := by
  intro av
  induction av with
  | nil => intro c n; rfl
  | cons a rest ih =>
    intro c n
    cases a with
    | true => simp [makeVectorMappingAux, ih (c + 1)]
    | false => simp [makeVectorMappingAux, ih (c + 1)]

theorem MakeVectorMapping_cons_true (rest : List Bool) :
    MakeVectorMapping (true :: rest) =
      (0, 0) :: ((MakeVectorMapping rest).map (fun p => (p.1, p.2 + 1))).map
        (fun p => (p.1 + 1, p.2)) := by
  show makeVectorMappingAux (true :: rest) 0 0 = _
  simp only [makeVectorMappingAux, if_pos rfl]
  rw [makeVectorMappingAux_fst_shift rest 0 1, makeVectorMappingAux_snd_shift rest 0 0]
  rfl

theorem MakeVectorMapping_cons_false (rest : List Bool) :
    MakeVectorMapping (false :: rest) =
      (MakeVectorMapping rest).map (fun p => (p.1 + 1, p.2)) := by
  show makeVectorMappingAux (false :: rest) 0 0 = _
  simp only [makeVectorMappingAux, Bool.false_eq_true, if_false]
  exact makeVectorMappingAux_fst_shift rest 0 0

/-- The condensed indices of the mapping are `0, 1, 2, …` in order: the
mapping is injective onto the gap-free range `[0, R)`. -/
theorem map_snd_MakeVectorMapping :
    ∀ av : List Bool, (MakeVectorMapping av).map Prod.snd = List.range (countTrue av) := by
  intro av
  induction av with
  | nil => rfl
  | cons a rest ih =>
    cases a with
    | true =>
      rw [MakeVectorMapping_cons_true]
      have hcnt : countTrue (true :: rest) = countTrue rest + 1 := by
        unfold countTrue
        rw [List.countP_cons]
        simp
      rw [hcnt, List.range_succ_eq_map]
      simp only [List.map_cons, List.map_map]
      congr 1
      rw [← ih]
      rw [List.map_map]
      apply List.map_congr_left
      intro p _
      simp [Nat.succ_eq_add_one]
    | false =>
      rw [MakeVectorMapping_cons_false]
      have hcnt : countTrue (false :: rest) = countTrue rest := by
        unfold countTrue
        rw [List.countP_cons]
        simp
      rw [hcnt, List.map_map, ← ih]
      apply List.map_congr_left
      intro p _
      rfl

/-- The original indices of the mapping are exactly the available original
indices, in increasing order. -/
theorem map_fst_MakeVectorMapping :
    ∀ av : List Bool, (MakeVectorMapping av).map Prod.fst =
      (List.range av.length).filter (fun i => av.getD i false) := by
  intro av
  induction av with
  | nil => rfl
  | cons a rest ih =>
    have hfilter : (List.range (a :: rest).length).filter
        (fun i => (a :: rest).getD i false) =
        (if a then [0] else []) ++
          ((List.range rest.length).filter (fun i => rest.getD i false)).map
            (fun i => i + 1) := by
      show (List.range (rest.length + 1)).filter _ = _
      rw [List.range_succ_eq_map, List.filter_cons]
      have hmap : (List.map Nat.succ (List.range rest.length)).filter
          (fun i => (a :: rest).getD i false) =
          ((List.range rest.length).filter (fun i => rest.getD i false)).map
            (fun i => i + 1) := by
        rw [List.filter_map]
        have : ((fun i => (a :: rest).getD i false) ∘ Nat.succ) =
            (fun i => rest.getD i false) := by
          funext i
          simp [List.getD_cons_succ]
        rw [this]
      cases a with
      | true => simp only [List.getD_cons_zero, if_pos rfl, hmap]; rfl
      | false => simp only [List.getD_cons_zero, Bool.false_eq_true, if_false, hmap]; rfl
    rw [hfilter]
    cases a with
    | true =>
      rw [MakeVectorMapping_cons_true]
      simp only [List.map_cons, List.map_map, if_pos rfl]
      congr 1
      rw [← ih, List.map_map]
      apply List.map_congr_left
      intro p _
      rfl
    | false =>
      rw [MakeVectorMapping_cons_false]
      simp only [Bool.false_eq_true, if_false, List.nil_append, List.map_map]
      rw [← ih, List.map_map]
      apply List.map_congr_left
      intro p _
      rfl

theorem length_MakeVectorMapping (av : List Bool) :
    (MakeVectorMapping av).length = countTrue av := by
  have := map_snd_MakeVectorMapping av
  have hlen := congrArg List.length this
  rw [List.length_map, List.length_range] at hlen
  exact hlen

theorem lookup_map_fstsucc_zero (l : List (Nat × Nat)) :
    (l.map (fun p => (p.1 + 1, p.2))).lookup 0 = none := by
  induction l with
  | nil => rfl
  | cons p rest ih => simp [List.lookup, ih]

theorem lookup_map_fstsucc_succ (l : List (Nat × Nat)) (i : Nat) :
    (l.map (fun p => (p.1 + 1, p.2))).lookup (i + 1) = l.lookup i := by
  induction l with
  | nil => rfl
  | cons p rest ih =>
    by_cases h : i = p.1
    · simp [List.lookup, h]
    · have h1 : ((i + 1 : Nat) == p.1 + 1) = false := by
        simp [h]
      have h2 : ((i : Nat) == p.1) = false := by
        simp [h]
      simp [List.lookup, h1, h2, ih]

theorem lookup_map_sndsucc (l : List (Nat × Nat)) (i : Nat) :
    (l.map (fun p => (p.1, p.2 + 1))).lookup i = (l.lookup i).map (fun v => v + 1) := by
  induction l with
  | nil => rfl
  | cons p rest ih =>
    by_cases h : i = p.1
    · simp [List.lookup, h]
    · have h2 : ((i : Nat) == p.1) = false := by simp [h]
      simp [List.lookup, h2, ih]

/-- Looking an original index up in the mapping: available indices map to
their rank among the available indices (the next free condensed index at
the time they were scanned); unavailable ones are absent. -/
theorem lookup_MakeVectorMapping :
    ∀ (av : List Bool) (i : Nat),
      (MakeVectorMapping av).lookup i =
        if av.getD i false = true then some (countTrue (av.take i)) else none := by
  intro av
  induction av with
  | nil =>
    intro i
    simp [MakeVectorMapping, makeVectorMappingAux, List.lookup]
  | cons a rest ih =>
    intro i
    cases i with
    | zero =>
      cases a with
      | true =>
        rw [MakeVectorMapping_cons_true]
        simp [List.lookup, countTrue]
      | false =>
        rw [MakeVectorMapping_cons_false, lookup_map_fstsucc_zero]
        simp
    | succ i =>
      cases a with
      | true =>
        rw [MakeVectorMapping_cons_true]
        have hkey : ((i + 1 : Nat) == 0) = false := by simp
        simp only [List.lookup, hkey]
        rw [lookup_map_fstsucc_succ, lookup_map_sndsucc, ih i]
        have htake : countTrue ((true :: rest).take (i + 1)) =
            countTrue (rest.take i) + 1 := by
          simp only [List.take_succ_cons]
          unfold countTrue
          rw [List.countP_cons]
          simp
        rw [List.getD_cons_succ, htake]
        by_cases h : rest.getD i false = true <;> simp [h]
      | false =>
        rw [MakeVectorMapping_cons_false, lookup_map_fstsucc_succ, ih i]
        have htake : countTrue ((false :: rest).take (i + 1)) =
            countTrue (rest.take i) := by
          simp only [List.take_succ_cons]
          unfold countTrue
          rw [List.countP_cons]
          simp
        rw [List.getD_cons_succ, htake]

theorem countTrue_eq_filter_range :
    ∀ av : List Bool, countTrue av =
      ((List.range av.length).filter (fun i => av.getD i false)).length := by
  intro av
  have := congrArg List.length (map_fst_MakeVectorMapping av)
  rw [List.length_map, length_MakeVectorMapping] at this
  exact this

/-- A membership test by `any` is the decidable membership of the mapped
list. -/
theorem any_eq_decide_mem (f : Edge → Nat) (es : List Edge) (i : Nat) :
    (es.any (fun e => decide (f e = i))) = decide (i ∈ es.map f) := by
  by_cases h : i ∈ es.map f
  · obtain ⟨e, he, hfe⟩ := List.mem_map.mp h
    have h1 : decide (i ∈ es.map f) = true := by simp [h]
    have h2 : (es.any fun e => decide (f e = i)) = true :=
      List.any_eq_true.mpr ⟨e, he, by simp [hfe]⟩
    rw [h1, h2]
  · have h1 : decide (i ∈ es.map f) = false := by simp [h]
    have h2 : (es.any fun e => decide (f e = i)) = false := by
      rw [← Bool.not_eq_true, List.any_eq_true]
      rintro ⟨e, he, hfe⟩
      exact h (List.mem_map.mpr ⟨e, he, of_decide_eq_true hfe⟩)
    rw [h1, h2]

/-- Counting the complement of a predicate. -/
theorem countP_not_add (p : Nat → Bool) :
    ∀ l : List Nat, l.countP (fun i => !(p i)) + l.countP p = l.length := by
  intro l
  induction l with
  | nil => rfl
  | cons x xs ih =>
    rw [List.countP_cons, List.countP_cons]
    by_cases h : p x = true <;> simp [h] <;> omega

/-- The number of available vertices after the include pass is the vertex
count minus the number of distinct knocked-out vertices. -/
theorem countTrue_availability_foldl (f : Edge → Nat) (es : List Edge) (N : Nat)
    (hb : ∀ e ∈ es, f e < N) :
    countTrue (es.foldl (fun a e => a.set (f e) false) (List.replicate N true)) =
      N - (es.map f).dedup.length := by
  set av := es.foldl (fun a e => a.set (f e) false) (List.replicate N true) with hav
  have hlen : av.length = N := by
    rw [hav, length_availability_foldl f, List.length_replicate]
  have hgetD : ∀ i, av.getD i false =
      (decide (i < N) && !(decide (i ∈ es.map f))) := by
    intro i
    rw [hav, getD_availability_foldl f es _ i, any_eq_decide_mem f es i]
    congr 1
    rw [List.getD_eq_getElem?_getD, List.getElem?_replicate]
    by_cases h : i < N <;> simp [h]
  rw [countTrue_eq_filter_range av, hlen]
  have hcong : (List.range N).filter (fun i => av.getD i false) =
      (List.range N).filter (fun i => !(decide (i ∈ es.map f))) := by
    apply List.filter_congr
    intro i hi
    rw [hgetD i]
    simp [List.mem_range.mp hi]
  rw [hcong]
  have hsplit := countP_not_add (fun i => decide (i ∈ es.map f)) (List.range N)
  rw [List.length_range] at hsplit
  have hin : ((List.range N).filter (fun i => decide (i ∈ es.map f))).length =
      (es.map f).dedup.length := by
    have hnd : ((List.range N).filter (fun i => decide (i ∈ es.map f))).Nodup :=
      List.Nodup.filter _ (List.nodup_range N)
    have hfs : ((List.range N).filter (fun i => decide (i ∈ es.map f))).toFinset =
        (es.map f).toFinset := by
      apply Finset.ext
      intro i
      rw [List.mem_toFinset, List.mem_toFinset, List.mem_filter]
      constructor
      · rintro ⟨-, h2⟩
        exact of_decide_eq_true h2
      · intro h
        refine ⟨?_, by simp [h]⟩
        rw [List.mem_range]
        obtain ⟨e, he, hfe⟩ := List.mem_map.mp h
        rw [← hfe]
        exact hb e he
    have h1 := List.card_toFinset ((List.range N).filter (fun i => decide (i ∈ es.map f)))
    have h2 := List.card_toFinset (es.map f)
    rw [hfs, h2] at h1
    rw [← hnd.dedup, h1]
  have hnotin : ((List.range N).filter (fun i => !(decide (i ∈ es.map f)))).length =
      (List.range N).countP (fun i => !(decide (i ∈ es.map f))) := by
    rw [List.countP_eq_length_filter]
  have hin' : ((List.range N).filter (fun i => decide (i ∈ es.map f))).length =
      (List.range N).countP (fun i => decide (i ∈ es.map f)) := by
    rw [List.countP_eq_length_filter]
  rw [hnotin]
  rw [hin'] at hin
  omega

/-- The state a constructed `CostMatrix` owns: the two original-to-condensed
index mappings and the condensed cell storage. -/
structure CostMatrix where
  rowMapping : List (Nat × Nat)
  columnMapping : List (Nat × Nat)
  entries : List (List CostMatrixInteger)
deriving DecidableEq

/-- Overwrite one cell of the condensed storage (the effect of an
assignment through `operator()(i, j)` resolved to condensed `(r, c)`). -/
def setCell (m : List (List CostMatrixInteger)) (r c : Nat)
    (f : CostMatrixInteger → CostMatrixInteger) : List (List CostMatrixInteger) :=
  m.set r ((m.getD r []).set c (f ((m.getD r []).getD c dummyCell)))

/-- One iteration of the exclude loop (cost_matrix.cpp:53-56): when both
endpoints of the exclude edge are still available, set the cell infinite;
otherwise skip the edge silently. -/
def excludeStep (rm cm : List (Nat × Nat)) (acc : List (List CostMatrixInteger))
    (e : Edge) : List (List CostMatrixInteger) :=
  match rm.lookup e.u, cm.lookup e.v with
  | some r, some c => setCell acc r c CostMatrixInteger.setInfinite
  | _, _ => acc

/-- `CostMatrix::CostMatrix` (cost_matrix.cpp:25-57).  The include pass
builds the two availability vectors, `MakeVectorMapping` turns them into the
condensed mappings, and the fill pass writes `graph(i, j)` with provenance
`Edge{i, j}` into condensed cell `(rowMapping[i], columnMapping[j])` for
every available pair, scanning vertices in increasing order.  Because
`MakeVectorMapping` hands out condensed indices in that same scan order
(`map_snd_MakeVectorMapping`), condensed row `k` is exactly the `k`-th
mapping entry, so the fill is rendered as a map over the mapping entries.
The exclude pass then walks the exclude edges in order and sets the cell of
every exclude edge whose two endpoints are still available to infinite,
silently skipping the others; availability is modelled from the spec as
lookup success, `IsRowAvailable`/`IsColumnAvailable` being declared in the
missing `cost_matrix.hpp`. -/
def CostMatrixInit (graph : Nat → Nat → Int) (numVertices : Nat)
    (includeEdges excludeEdges : List Edge) : CostMatrix :=
  let rm := MakeVectorMapping (rowAvailability includeEdges numVertices)
  let cm := MakeVectorMapping (columnAvailability includeEdges numVertices)
  let base := rm.map (fun pi => cm.map (fun pj =>
    CostMatrixInteger.mk (graph pi.1 pj.1) false (Edge.mk pi.1 pj.1)))
  let entries := excludeEdges.foldl (excludeStep rm cm) base
  ⟨rm, cm, entries⟩

/-- The error message of `CostMatrix::GetCondensedRowNum`
(cost_matrix.cpp:108). -/
def NotAvailableRow : String := "This row number is not available"

/-- The error message of `CostMatrix::GetCondensedColumnNum`
(cost_matrix.cpp:114). -/
def NotAvailableColumn : String := "This column number is not available"

/-- `CostMatrix::GetCondensedRowNum` (cost_matrix.cpp:106-110): throw
`NotAvailableError` when the row is not available, otherwise return the
condensed row number `row_mapping_.at(row_num)`.  Availability is modelled
from the spec as presence in the mapping (`IsRowAvailable` is declared in
the missing header). -/
def GetCondensedRowNum (M : CostMatrix) (rowNum : Nat) : Except String Nat :=
  match M.rowMapping.lookup rowNum with
  | none => Except.error NotAvailableRow
  | some r => Except.ok r

/-- `CostMatrix::GetCondensedColumnNum` (cost_matrix.cpp:112-116). -/
def GetCondensedColumnNum (M : CostMatrix) (columnNum : Nat) : Except String Nat :=
  match M.columnMapping.lookup columnNum with
  | none => Except.error NotAvailableColumn
  | some c => Except.ok c

/-- `CostMatrix::operator()(const Edge&)` (cost_matrix.cpp:91-92): resolve
both endpoints through the mappings and read the condensed cell; a thrown
`NotAvailableError` is modelled as the error branch. -/
def costMatrixApply (M : CostMatrix) (e : Edge) : Except String CostMatrixInteger :=
  match GetCondensedRowNum M e.u, GetCondensedColumnNum M e.v with
  | Except.ok r, Except.ok c => Except.ok (cellAt M.entries r c)
  | Except.error s, _ => Except.error s
  | _, Except.error s => Except.error s

/-- `CostMatrix::operator()(int, int)` (cost_matrix.cpp:89-90): delegates to
the `Edge` overload. -/
def costMatrixAt (M : CostMatrix) (rowNum columnNum : Nat) :
    Except String CostMatrixInteger :=
  costMatrixApply M (Edge.mk rowNum columnNum)

/-- `CostMatrix::GetRow` (cost_matrix.cpp:100-101): resolve the condensed
row number and hand out the row view, modelled by the cells the
`CostRow{&cost_matrix_, r}` view ranges over. -/
def GetRow (M : CostMatrix) (rowNum : Nat) : Except String (List CostMatrixInteger) :=
  match GetCondensedRowNum M rowNum with
  | Except.error s => Except.error s
  | Except.ok r => Except.ok (M.entries.getD r [])

/-- `CostMatrix::GetColumn` (cost_matrix.cpp:103-104). -/
def GetColumn (M : CostMatrix) (columnNum : Nat) : Except String (List CostMatrixInteger) :=
  match GetCondensedColumnNum M columnNum with
  | Except.error s => Except.error s
  | Except.ok c => Except.ok (getCol M.entries c)

theorem length_setCell (m : List (List CostMatrixInteger)) (r c : Nat)
    (f : CostMatrixInteger → CostMatrixInteger) :
    (setCell m r c f).length = m.length := by
  unfold setCell
  rw [List.length_set]

theorem getD_setCell_rowlen (m : List (List CostMatrixInteger)) (r c i : Nat)
    (f : CostMatrixInteger → CostMatrixInteger) :
    ((setCell m r c f).getD i []).length = (m.getD i []).length := by
  unfold setCell
  set row' := (m.getD r []).set c (f ((m.getD r []).getD c dummyCell)) with hrow'
  by_cases hir : r = i
  · subst hir
    by_cases hlt : r < m.length
    · have h1 : (m.set r row').getD r [] = row' := by
        rw [List.getD_eq_getElem?_getD (m.set r row') r [],
          List.getElem?_set_self (by omega)]
        rfl
      rw [h1, hrow', List.length_set]
    · have h1 : (m.set r row').getD r [] = [] := by
        rw [List.getD_eq_getElem?_getD (m.set r row') r [],
          List.getElem?_eq_none (by rw [List.length_set]; omega)]
        rfl
      have h2 : m.getD r [] = [] := by
        rw [List.getD_eq_getElem?_getD m r [], List.getElem?_eq_none (by omega)]
        rfl
      rw [h1, h2]
  · have h1 : (m.set r row').getD i [] = m.getD i [] := by
      rw [List.getD_eq_getElem?_getD (m.set r row') i [],
        List.getElem?_set_ne hir, ← List.getD_eq_getElem?_getD]
    rw [h1]

/-- Reading a cell after writing a cell. -/
theorem cellAt_setCell (m : List (List CostMatrixInteger)) (r' c' r c : Nat)
    (f : CostMatrixInteger → CostMatrixInteger) (hr : r < m.length)
    (hc : c < (m.getD r []).length) :
    cellAt (setCell m r' c' f) r c =
      if r' = r ∧ c' = c then f (cellAt m r c) else cellAt m r c := by
  unfold setCell cellAt
  set row' := (m.getD r' []).set c' (f ((m.getD r' []).getD c' dummyCell)) with hrow'
  by_cases hrr : r' = r
  · subst hrr
    have h1 : (m.set r' row').getD r' [] = row' := by
      rw [List.getD_eq_getElem?_getD (m.set r' row') r' [],
        List.getElem?_set_self (by omega)]
      rfl
    rw [h1]
    by_cases hcc : c' = c
    · subst hcc
      have h2 : row'.getD c' dummyCell = f ((m.getD r' []).getD c' dummyCell) := by
        rw [hrow', List.getD_eq_getElem?_getD, List.getElem?_set_self hc]
        rfl
      rw [h2]
      simp
    · have h2 : row'.getD c dummyCell = (m.getD r' []).getD c dummyCell := by
        rw [hrow', List.getD_eq_getElem?_getD,
          List.getElem?_set_ne hcc, ← List.getD_eq_getElem?_getD]
      rw [h2]
      simp [hcc]
  · have h1 : (m.set r' row').getD r [] = m.getD r [] := by
      rw [List.getD_eq_getElem?_getD (m.set r' row') r [],
        List.getElem?_set_ne hrr, ← List.getD_eq_getElem?_getD]
    rw [h1]
    simp [hrr]

theorem lookup_mem {l : List (Nat × Nat)} {i v : Nat}
    (h : l.lookup i = some v) : (i, v) ∈ l := by
  induction l with
  | nil => cases h
  | cons p rest ih =>
    obtain ⟨k, w⟩ := p
    by_cases hik : i = k
    · subst hik
      simp [List.lookup] at h
      rw [h]
      exact List.mem_cons_self _ _
    · have hbeq : ((i : Nat) == k) = false := by simp [hik]
      simp only [List.lookup, hbeq] at h
      exact List.mem_cons_of_mem _ (ih h)

/-- In a mapping whose condensed indices are `0, 1, 2, …` in order, a
successful lookup pins down the whole mapping entry. -/
theorem lookup_getElem_self {l : List (Nat × Nat)}
    (hsnd : l.map Prod.snd = List.range l.length) {i r : Nat}
    (h : l.lookup i = some r) :
    ∃ hr : r < l.length, l.get ⟨r, hr⟩ = (i, r) := by
  have hmem := lookup_mem h
  obtain ⟨k, hk, hke⟩ := List.mem_iff_getElem.mp hmem
  have hsnd_k : l[k].2 = k := by
    have h1 : (l.map Prod.snd)[k]? = some l[k].2 := by
      rw [List.getElem?_map, List.getElem?_eq_getElem hk]
      rfl
    rw [hsnd, List.getElem?_range hk] at h1
    exact (Option.some.inj h1).symm
  have hkr : k = r := by rw [hke] at hsnd_k; exact hsnd_k.symm
  subst hkr
  exact ⟨hk, by rw [List.get_eq_getElem]; exact hke⟩

/-- Two original indices mapping to the same condensed index coincide. -/
theorem lookup_inj {l : List (Nat × Nat)}
    (hsnd : l.map Prod.snd = List.range l.length) {a b r : Nat}
    (ha : l.lookup a = some r) (hb : l.lookup b = some r) : a = b := by
  obtain ⟨h1, e1⟩ := lookup_getElem_self hsnd ha
  obtain ⟨h2, e2⟩ := lookup_getElem_self hsnd hb
  have : (a, r) = (b, r) := by rw [← e1, ← e2]
  exact congrArg Prod.fst this

/-- Whether an exclude edge resolves to condensed cell `(r, c)`. -/
def hitsCell (rm cm : List (Nat × Nat)) (r c : Nat) (e : Edge) : Bool :=
  (rm.lookup e.u == some r) && (cm.lookup e.v == some c)

theorem setInfinite_setInfinite (x : CostMatrixInteger) :
    setInfinite (setInfinite x) = setInfinite x := rfl

theorem excludeStep_none_u {rm cm : List (Nat × Nat)}
    {acc : List (List CostMatrixInteger)} {e : Edge}
    (hu : rm.lookup e.u = none) : excludeStep rm cm acc e = acc := by
  unfold excludeStep
  rw [hu]

theorem excludeStep_none_v {rm cm : List (Nat × Nat)}
    {acc : List (List CostMatrixInteger)} {e : Edge}
    (hv : cm.lookup e.v = none) : excludeStep rm cm acc e = acc := by
  unfold excludeStep
  rw [hv]
  cases rm.lookup e.u <;> rfl

theorem excludeStep_some {rm cm : List (Nat × Nat)}
    {acc : List (List CostMatrixInteger)} {e : Edge} {r c : Nat}
    (hu : rm.lookup e.u = some r) (hv : cm.lookup e.v = some c) :
    excludeStep rm cm acc e = setCell acc r c setInfinite := by
  unfold excludeStep
  rw [hu, hv]

/-- Net effect of the exclude loop on one in-bounds condensed cell. -/
theorem cellAt_excludeFold (rm cm : List (Nat × Nat)) :
    ∀ (exc : List Edge) (acc : List (List CostMatrixInteger)) (r c : Nat),
      r < acc.length → c < (acc.getD r []).length →
      cellAt (exc.foldl (excludeStep rm cm) acc) r c =
        if exc.any (hitsCell rm cm r c) then setInfinite (cellAt acc r c)
        else cellAt acc r c := by
  intro exc
  induction exc with
  | nil =>
    intro acc r c _ _
    simp
  | cons e exc ih =>
    intro acc r c hr hc
    simp only [List.foldl_cons, List.any_cons]
    cases hu : rm.lookup e.u with
    | none =>
      have hhit : hitsCell rm cm r c e = false := by
        unfold hitsCell
        rw [hu]
        rfl
      rw [excludeStep_none_u hu]
      simp only [hhit, Bool.false_or]
      exact ih acc r c hr hc
    | some r' =>
      cases hv : cm.lookup e.v with
      | none =>
        have hhit : hitsCell rm cm r c e = false := by
          unfold hitsCell
          rw [hu, hv]
          simp
        rw [excludeStep_none_v hv]
        simp only [hhit, Bool.false_or]
        exact ih acc r c hr hc
      | some c' =>
        rw [excludeStep_some hu hv]
        have hrec := ih (setCell acc r' c' setInfinite) r c
          (by rw [length_setCell]; exact hr)
          (by rw [getD_setCell_rowlen]; exact hc)
        rw [hrec, cellAt_setCell acc r' c' r c setInfinite hr hc]
        have hhit : hitsCell rm cm r c e = (decide (r' = r) && decide (c' = c)) := by
          unfold hitsCell
          rw [hu, hv]
          by_cases h1 : r' = r <;> by_cases h2 : c' = c <;> simp [h1, h2]
        simp only [hhit]
        by_cases h1 : r' = r <;> by_cases h2 : c' = c <;>
          by_cases h3 : exc.any (hitsCell rm cm r c) = true <;>
          simp [h1, h2, h3, setInfinite_setInfinite]

/-- The mapping's condensed indices enumerate `[0, R)` in order. -/
theorem snd_range_MakeVectorMapping (av : List Bool) :
    (MakeVectorMapping av).map Prod.snd = List.range (MakeVectorMapping av).length := by
  rw [map_snd_MakeVectorMapping, length_MakeVectorMapping]

/-- Reading a cell of the fill-pass matrix. -/
theorem cellAt_fill (graph : Nat → Nat → Int) (rm cm : List (Nat × Nat))
    {r c : Nat} (hr : r < rm.length) (hc : c < cm.length) :
    cellAt (rm.map (fun pi => cm.map (fun pj =>
        CostMatrixInteger.mk (graph pi.1 pj.1) false (Edge.mk pi.1 pj.1)))) r c =
      CostMatrixInteger.mk (graph (rm.get ⟨r, hr⟩).1 (cm.get ⟨c, hc⟩).1) false
        (Edge.mk (rm.get ⟨r, hr⟩).1 (cm.get ⟨c, hc⟩).1) := by
  unfold cellAt
  have h1 : (rm.map (fun pi => cm.map (fun pj =>
      CostMatrixInteger.mk (graph pi.1 pj.1) false (Edge.mk pi.1 pj.1)))).getD r [] =
      cm.map (fun pj => CostMatrixInteger.mk (graph (rm.get ⟨r, hr⟩).1 pj.1) false
        (Edge.mk (rm.get ⟨r, hr⟩).1 pj.1)) := by
    rw [List.getD_eq_getElem?_getD, List.getElem?_map, List.getElem?_eq_getElem hr]
    rfl
  rw [h1, List.getD_eq_getElem?_getD, List.getElem?_map, List.getElem?_eq_getElem hc]
  rfl

/-- Dimensions of the fill-pass matrix. -/
theorem fill_dims (graph : Nat → Nat → Int) (rm cm : List (Nat × Nat)) :
    (rm.map (fun pi => cm.map (fun pj =>
        CostMatrixInteger.mk (graph pi.1 pj.1) false (Edge.mk pi.1 pj.1)))).length =
      rm.length ∧
    ∀ r, r < rm.length →
      ((rm.map (fun pi => cm.map (fun pj =>
          CostMatrixInteger.mk (graph pi.1 pj.1) false (Edge.mk pi.1 pj.1)))).getD
        r []).length = cm.length := by
  constructor
  · rw [List.length_map]
  · intro r hr
    rw [List.getD_eq_getElem?_getD, List.getElem?_map, List.getElem?_eq_getElem hr]
    simp

/-- The full cell-level characterisation of the constructor: at any pair of
available original vertices, the cell carries the graph cost and provenance
`Edge{i, j}`, marked infinite exactly when some exclude edge names the
pair. -/
theorem CostMatrixInit_cell (graph : Nat → Nat → Int) (numVertices : Nat)
    (includeEdges excludeEdges : List Edge) {i j r c : Nat}
    (hr : (CostMatrixInit graph numVertices includeEdges excludeEdges).rowMapping.lookup i
      = some r)
    (hc : (CostMatrixInit graph numVertices includeEdges excludeEdges).columnMapping.lookup j
      = some c) :
    cellAt (CostMatrixInit graph numVertices includeEdges excludeEdges).entries r c =
      if excludeEdges.any (fun e => decide (e.u = i) && decide (e.v = j))
      then setInfinite (CostMatrixInteger.mk (graph i j) false (Edge.mk i j))
      else CostMatrixInteger.mk (graph i j) false (Edge.mk i j) := by
  set rm := MakeVectorMapping (rowAvailability includeEdges numVertices) with hrm
  set cm := MakeVectorMapping (columnAvailability includeEdges numVertices) with hcm
  have hr' : rm.lookup i = some r := hr
  have hc' : cm.lookup j = some c := hc
  have hsnd_r : rm.map Prod.snd = List.range rm.length := by
    rw [hrm]; exact snd_range_MakeVectorMapping _
  have hsnd_c : cm.map Prod.snd = List.range cm.length := by
    rw [hcm]; exact snd_range_MakeVectorMapping _
  obtain ⟨hrlt, hre⟩ := lookup_getElem_self hsnd_r hr'
  obtain ⟨hclt, hce⟩ := lookup_getElem_self hsnd_c hc'
  have hentries : (CostMatrixInit graph numVertices includeEdges excludeEdges).entries =
      excludeEdges.foldl (excludeStep rm cm)
        (rm.map (fun pi => cm.map (fun pj =>
          CostMatrixInteger.mk (graph pi.1 pj.1) false (Edge.mk pi.1 pj.1)))) := rfl
  obtain ⟨hdim1, hdim2⟩ := fill_dims graph rm cm
  rw [hentries, cellAt_excludeFold rm cm excludeEdges _ r c
    (by rw [hdim1]; exact hrlt) (by rw [hdim2 r hrlt]; exact hclt)]
  have hfst_r : (rm.get ⟨r, hrlt⟩).1 = i := by rw [hre]
  have hfst_c : (cm.get ⟨c, hclt⟩).1 = j := by rw [hce]
  have hbase := cellAt_fill graph rm cm hrlt hclt
  rw [hfst_r, hfst_c] at hbase
  rw [hbase]
  have hpred : hitsCell rm cm r c = fun e => decide (e.u = i) && decide (e.v = j) := by
    funext e
    have h1 : (rm.lookup e.u == some r) = decide (e.u = i) := by
      by_cases h : e.u = i
      · rw [h, hr']
        simp
      · cases hlu : rm.lookup e.u with
        | none => simp [h]
        | some r'' =>
          have hne : r'' ≠ r := by
            intro hrr
            exact h (lookup_inj hsnd_r (hrr ▸ hlu) hr')
          simp [h, hne]
    have h2 : (cm.lookup e.v == some c) = decide (e.v = j) := by
      by_cases h : e.v = j
      · rw [h, hc']
        simp
      · cases hlv : cm.lookup e.v with
        | none => simp [h]
        | some c'' =>
          have hne : c'' ≠ c := by
            intro hcc
            exact h (lookup_inj hsnd_c (hcc ▸ hlv) hc')
          simp [h, hne]
    unfold hitsCell
    rw [h1, h2]
  rw [hpred]

/-- Exclude edges whose endpoints are no longer available have no effect:
the exclude pass over the full list equals the pass over the list with the
moot edges filtered out. -/
theorem excludeFold_filter (rm cm : List (Nat × Nat)) :
    ∀ (exc : List Edge) (acc : List (List CostMatrixInteger)),
      exc.foldl (excludeStep rm cm) acc =
        (exc.filter (fun e => (rm.lookup e.u).isSome && (cm.lookup e.v).isSome)).foldl
          (excludeStep rm cm) acc := by
  intro exc
  induction exc with
  | nil => intro acc; rfl
  | cons e exc ih =>
    intro acc
    rw [List.foldl_cons, List.filter_cons]
    cases hu : rm.lookup e.u with
    | none =>
      rw [excludeStep_none_u hu]
      simp only [Option.isSome_none, Bool.false_and, Bool.false_eq_true, if_false]
      exact ih acc
    | some r' =>
      cases hv : cm.lookup e.v with
      | none =>
        rw [excludeStep_none_v hv]
        simp only [Option.isSome_none, Option.isSome_some, Bool.true_and,
          Bool.and_false, Bool.false_eq_true, if_false]
        exact ih acc
      | some c' =>
        simp only [Option.isSome_some, Bool.and_self, if_true, List.foldl_cons]
        exact ih (excludeStep rm cm acc e)

/-- The state mutation of `CostVector::Iterator::operator++`
(cost_matrix.cpp:134-145, prefix and postfix alike): advance the traversing
cell index only while it is strictly below the vector's `Size()`. -/
def vectorIteratorStep (size idx : Nat) : Nat :=
  if idx < size then idx + 1 else idx

/-- `CostMatrix::Iterator::MoveToNextCell` (cost_matrix.cpp:187-195): return
unchanged at the end state `(numRows, 0)`; otherwise advance the column
modulo the column count, wrapping to the next row when the column wraps to
zero. -/
def MoveToNextCell (numRows numColumns : Nat) (pos : Nat × Nat) : Nat × Nat :=
  if pos.1 = numRows ∧ pos.2 = 0 then pos
  else
    let c := (pos.2 + 1) % numColumns
    if c = 0 then (pos.1 + 1, c) else (pos.1, c)

/-- The vector iterator's trajectory from `begin`: after `n` increments the
index is `min n size`. -/
theorem vectorIterator_iterate (size : Nat) :
    ∀ n, (vectorIteratorStep size)^[n] 0 = min n size := by
  intro n
  induction n with
  | zero => simp
  | succ n ih =>
    rw [Function.iterate_succ_apply', ih]
    unfold vectorIteratorStep
    rcases Nat.lt_or_ge n size with h | h
    · rw [Nat.min_eq_left (Nat.le_of_lt h), if_pos h, Nat.min_eq_left (Nat.succ_le_of_lt h)]
    · rw [Nat.min_eq_right h, if_neg (by omega), Nat.min_eq_right (by omega)]

/-- The whole-matrix iterator's trajectory from `begin`: within the first
`rows × cols` increments it sits at row-major position `(n / cols, n % cols)`
(the degenerate `rows = 0` case holds for any column count). -/
theorem matrixIterator_iterate {rows cols : Nat} (h : 0 < cols ∨ rows = 0) :
    ∀ n, n ≤ rows * cols →
      (MoveToNextCell rows cols)^[n] (0, 0) = (n / cols, n % cols) := by
  intro n
  induction n with
  | zero =>
    intro _
    simp
  | succ n ih =>
    intro hn
    rcases h with hcols | hrows
    · have hnlt : n < rows * cols := Nat.lt_of_succ_le hn
      rw [Function.iterate_succ_apply', ih (Nat.le_of_lt hnlt)]
      have hdivlt : n / cols < rows := Nat.div_lt_of_lt_mul (by rw [Nat.mul_comm]; exact hnlt)
      have hmodlt : n % cols < cols := Nat.mod_lt n hcols
      have hdm := Nat.div_add_mod n cols
      unfold MoveToNextCell
      have hend : ¬(n / cols = rows ∧ n % cols = 0) := by
        rintro ⟨h1, -⟩
        omega
      rw [if_neg hend]
      simp only
      by_cases hwrap : n % cols + 1 = cols
      · have hc0 : (n % cols + 1) % cols = 0 := by rw [hwrap, Nat.mod_self]
        have hn1 : n + 1 = cols * (n / cols + 1) := by
          rw [Nat.mul_add, Nat.mul_one]
          omega
        have hdiv : (n + 1) / cols = n / cols + 1 := by
          rw [hn1, Nat.mul_div_cancel_left _ hcols]
        have hmod : (n + 1) % cols = 0 := by
          rw [hn1, Nat.mul_mod_right]
        rw [hc0, hdiv, hmod]
        simp
      · have hlt : n % cols + 1 < cols := by omega
        have hc : (n % cols + 1) % cols = n % cols + 1 := Nat.mod_eq_of_lt hlt
        rw [hc, if_neg (by omega)]
        have hn1 : n + 1 = cols * (n / cols) + (n % cols + 1) := by omega
        have hdiv : (n + 1) / cols = n / cols := by
          rw [hn1, Nat.mul_add_div hcols, Nat.div_eq_of_lt hlt, Nat.add_zero]
        have hmod : (n + 1) % cols = n % cols + 1 := by
          rw [hn1, Nat.mul_add_mod, Nat.mod_eq_of_lt hlt]
        rw [hdiv, hmod]
    · subst hrows
      simp at hn

/-- The end state `(numRows, 0)` is a fixed point of `MoveToNextCell`. -/
theorem MoveToNextCell_end (rows cols : Nat) :
    MoveToNextCell rows cols (rows, 0) = (rows, 0) := by
  unfold MoveToNextCell
  rw [if_pos ⟨rfl, rfl⟩]

/-! ## Concrete matrices used to instantiate the claim theorems -/

/-- A 2×2 all-finite matrix. -/
def sampleFinite : List (List CostMatrixInteger) :=
  [[CostMatrixInteger.mk 3 false (Edge.mk 0 0),
    CostMatrixInteger.mk 5 false (Edge.mk 0 1)],
   [CostMatrixInteger.mk 2 false (Edge.mk 1 0),
    CostMatrixInteger.mk 7 false (Edge.mk 1 1)]]

/-- What one `ReduceMatrix` call turns `sampleFinite` into. -/
def sampleFiniteReduced : List (List CostMatrixInteger) :=
  [[CostMatrixInteger.mk 0 false (Edge.mk 0 0),
    CostMatrixInteger.mk 0 false (Edge.mk 0 1)],
   [CostMatrixInteger.mk 0 false (Edge.mk 1 0),
    CostMatrixInteger.mk 3 false (Edge.mk 1 1)]]

/-- A 2×2 matrix with one infinite cell. -/
def sampleOneInf : List (List CostMatrixInteger) :=
  [[CostMatrixInteger.mk 3 true (Edge.mk 0 0),
    CostMatrixInteger.mk 5 false (Edge.mk 0 1)],
   [CostMatrixInteger.mk 2 false (Edge.mk 1 0),
    CostMatrixInteger.mk 7 false (Edge.mk 1 1)]]

/-- What two successive `ReduceMatrix` calls turn `sampleOneInf` into. -/
def sampleOneInfReduced : List (List CostMatrixInteger) :=
  [[CostMatrixInteger.mk 3 true (Edge.mk 0 0),
    CostMatrixInteger.mk 0 false (Edge.mk 0 1)],
   [CostMatrixInteger.mk 0 false (Edge.mk 1 0),
    CostMatrixInteger.mk 5 false (Edge.mk 1 1)]]

/-- A 2×2 matrix whose first row is all-infinite. -/
def sampleBadRow : List (List CostMatrixInteger) :=
  [[CostMatrixInteger.mk 3 true (Edge.mk 0 0),
    CostMatrixInteger.mk 5 true (Edge.mk 0 1)],
   [CostMatrixInteger.mk 2 false (Edge.mk 1 0),
    CostMatrixInteger.mk 7 false (Edge.mk 1 1)]]

/-- An all-infinite two-cell sequence. -/
def sampleInfVector : List CostMatrixInteger :=
  [CostMatrixInteger.mk 9 true (Edge.mk 0 0),
   CostMatrixInteger.mk 1 true (Edge.mk 0 1)]

/-! ## Claim theorems -/

/-- C1: For every CostMatrix in which every condensed row and every
condensed column contains at least one finite cell, `ReduceMatrix()`
subtracts each row's minimum (infinite cells counting as larger than any
finite value) from every cell of that row, running all rows fully before
any column (`rowReducedSpec`), then subtracts each column's minimum from
the already row-reduced matrix (`colReducedSpec` of `rowReducedSpec`), and
returns the sum of all row minima plus all column minima computed in that
order. -/
theorem claim_C1 (m : List (List CostMatrixInteger)) (cols : Nat)
    (hrect : Rect m cols) (hrows : ∀ r ∈ m, hasFinite r)
    (hcols : ∀ j, j < cols → hasFinite (getCol m j)) :
    ReduceMatrix m cols =
      some ((m.map (fun r => (specMin r).getD 0)).sum +
        ((List.range cols).map
          (fun j => (specMin (getCol (rowReducedSpec m) j)).getD 0)).sum,
        colReducedSpec (rowReducedSpec m)) :=
  ReduceMatrix_char hrect hrows hcols

theorem claim_C1_witness :
    Rect sampleFinite 2 ∧ (∀ r ∈ sampleFinite, hasFinite r) ∧
    (∀ j, j < 2 → hasFinite (getCol sampleFinite j)) ∧
    ReduceMatrix sampleFinite 2 =
      some ((sampleFinite.map (fun r => (specMin r).getD 0)).sum +
        ((List.range 2).map
          (fun j => (specMin (getCol (rowReducedSpec sampleFinite) j)).getD 0)).sum,
        colReducedSpec (rowReducedSpec sampleFinite)) :=
  ⟨by decide, by decide, by decide,
    claim_C1 sampleFinite 2 (by decide) (by decide) (by decide)⟩

/-- C4: After one call to `ReduceMatrix()` on a matrix with no all-infinite
condensed row or column (equivalently, a call that returns rather than
asserting), every condensed row and every condensed column of the mutated
matrix contains at least one cell with value 0. -/
theorem claim_C4 {m : List (List CostMatrixInteger)} {cols : Nat} {d : Int}
    {m2 : List (List CostMatrixInteger)} (hrect : Rect m cols)
    (h : ReduceMatrix m cols = some (d, m2)) :
    (∀ r ∈ m2, hasZero r) ∧ (∀ j, j < cols → hasZero (getCol m2 j)) := by
  obtain ⟨-, hrows, hcols⟩ := ReduceMatrix_post hrect h
  exact ⟨fun r hr => (hrows r hr).1, hcols⟩

theorem claim_C4_witness :
    Rect sampleFinite 2 ∧
    ReduceMatrix sampleFinite 2 = some (7, sampleFiniteReduced) ∧
    ((∀ r ∈ sampleFiniteReduced, hasZero r) ∧
      (∀ j, j < 2 → hasZero (getCol sampleFiniteReduced j))) :=
  ⟨by decide, by decide,
    @claim_C4 sampleFinite 2 7 sampleFiniteReduced (by decide) (by decide)⟩

/-- C5: For every matrix on which `ReduceMatrix()` has already been called
once (under the no-all-infinite-row/column precondition, i.e. the call
returned), calling `ReduceMatrix()` a second time returns 0 as the
additional increment (and leaves the matrix unchanged). -/
theorem claim_C5 {m : List (List CostMatrixInteger)} {cols : Nat} {d : Int}
    {m2 : List (List CostMatrixInteger)} (hrect : Rect m cols)
    (h : ReduceMatrix m cols = some (d, m2)) :
    ReduceMatrix m2 cols = some (0, m2) := by
  obtain ⟨hrect2, hrows, hcols⟩ := ReduceMatrix_post hrect h
  exact ReduceMatrix_again hrect2 hrows hcols

theorem claim_C5_witness :
    Rect sampleFinite 2 ∧
    ReduceMatrix sampleFinite 2 = some (7, sampleFiniteReduced) ∧
    ReduceMatrix sampleFiniteReduced 2 = some (0, sampleFiniteReduced) :=
  ⟨by decide, by decide,
    @claim_C5 sampleFinite 2 7 sampleFiniteReduced (by decide) (by decide)⟩

/-- C6: Subtracting any amount from an infinite cell leaves it infinite;
a cell marked infinite at construction stays infinite after any number of
`ReduceMatrix()` calls (reduction never raises a cell from infinite back to
finite); and an infinite cell is never selected as a row or column minimum
unless every cell of that row/column is infinite. -/
theorem claim_C6 :
    (∀ (x b : CostMatrixInteger), x.infinite = true → (sub x b).infinite = true) ∧
    (∀ (cols n : Nat) (m m2 : List (List CostMatrixInteger)), Rect m cols →
      ReduceMatrixN cols n m = some m2 →
      ∀ i j, (cellAt m i j).infinite = true → (cellAt m2 i j).infinite = true) ∧
    (∀ (l : List CostMatrixInteger) (mn : CostMatrixInteger),
      minElement l = some mn → mn.infinite = true → ∀ z ∈ l, z.infinite = true) := by
  refine ⟨?_, ?_, ?_⟩
  · intro x b hx
    rw [infinite_sub]
    exact hx
  · intro cols n m m2 hrect h i j hij
    rw [ReduceMatrixN_infinite_preserved n m m2 hrect h i j]
    exact hij
  · intro l mn h hmn
    exact minElement_infinite_all h hmn

theorem claim_C6_witness :
    ((CostMatrixInteger.mk 4 true (Edge.mk 0 1)).infinite = true ∧
      (sub (CostMatrixInteger.mk 4 true (Edge.mk 0 1))
        (CostMatrixInteger.mk 2 false (Edge.mk 0 0))).infinite = true) ∧
    (Rect sampleOneInf 2 ∧
      ReduceMatrixN 2 2 sampleOneInf = some sampleOneInfReduced ∧
      (cellAt sampleOneInf 0 0).infinite = true ∧
      (cellAt sampleOneInfReduced 0 0).infinite = true) ∧
    (minElement sampleInfVector =
        some (CostMatrixInteger.mk 9 true (Edge.mk 0 0)) ∧
      ∀ z ∈ sampleInfVector, z.infinite = true) :=
  ⟨⟨by decide, claim_C6.1 (CostMatrixInteger.mk 4 true (Edge.mk 0 1))
      (CostMatrixInteger.mk 2 false (Edge.mk 0 0)) (by decide)⟩,
   ⟨by decide, by decide, by decide,
     claim_C6.2.1 2 2 sampleOneInf sampleOneInfReduced (by decide) (by decide)
       0 0 (by decide)⟩,
   ⟨by decide, claim_C6.2.2 sampleInfVector
      (CostMatrixInteger.mk 9 true (Edge.mk 0 0)) (by decide) (by decide)⟩⟩

/-- C8: Under the precondition that every condensed row and every condensed
column contains at least one finite cell, the assertions inside
`ReduceMatrix()` hold and it returns a bound; a matrix whose edge sets
leave an all-infinite row or column violates this asserted precondition and
reduction aborts via the assertion (`none`) rather than returning a
bound. -/
theorem claim_C8 {m : List (List CostMatrixInteger)} {cols : Nat}
    (hrect : Rect m cols) :
    (ReduceMatrix m cols).isSome = true ↔
      ((∀ r ∈ m, hasFinite r) ∧ ∀ j, j < cols → hasFinite (getCol m j)) :=
  ReduceMatrix_isSome_iff hrect

theorem claim_C8_witness :
    Rect sampleBadRow 2 ∧
    (((ReduceMatrix sampleBadRow 2).isSome = true ↔
      ((∀ r ∈ sampleBadRow, hasFinite r) ∧
        ∀ j, j < 2 → hasFinite (getCol sampleBadRow j))) ∧
      ReduceMatrix sampleBadRow 2 = none) :=
  ⟨by decide, claim_C8 (by decide), by decide⟩

/-- C2: For every graph of `N` vertices and every include edge set (with
in-range endpoints, as the C++ indexes the availability vectors with them),
the constructed CostMatrix has condensed row count `N` minus the number of
distinct include-edge origins and condensed column count `N` minus the
number of distinct include-edge destinations, and the row/column mappings
are injective onto the gap-free contiguous ranges `[0, R)` and `[0, C)`
(their condensed indices are exactly `range R` / `range C`, in order),
preserving the original relative order of the available vertices (their
original indices are exactly the availability-filtered `range N`, in
order). -/
theorem claim_C2 (includeEdges : List Edge) (N : Nat)
    (hbu : ∀ e ∈ includeEdges, e.u < N) (hbv : ∀ e ∈ includeEdges, e.v < N) :
    (MakeVectorMapping (rowAvailability includeEdges N)).length =
      N - (includeEdges.map Edge.u).dedup.length ∧
    (MakeVectorMapping (columnAvailability includeEdges N)).length =
      N - (includeEdges.map Edge.v).dedup.length ∧
    (MakeVectorMapping (rowAvailability includeEdges N)).map Prod.snd =
      List.range (MakeVectorMapping (rowAvailability includeEdges N)).length ∧
    (MakeVectorMapping (columnAvailability includeEdges N)).map Prod.snd =
      List.range (MakeVectorMapping (columnAvailability includeEdges N)).length ∧
    (MakeVectorMapping (rowAvailability includeEdges N)).map Prod.fst =
      (List.range N).filter (fun i => (rowAvailability includeEdges N).getD i false) ∧
    (MakeVectorMapping (columnAvailability includeEdges N)).map Prod.fst =
      (List.range N).filter (fun j => (columnAvailability includeEdges N).getD j false) := by
  refine ⟨?_, ?_, snd_range_MakeVectorMapping _, snd_range_MakeVectorMapping _, ?_, ?_⟩
  · rw [length_MakeVectorMapping]
    exact countTrue_availability_foldl Edge.u includeEdges N hbu
  · rw [length_MakeVectorMapping]
    exact countTrue_availability_foldl Edge.v includeEdges N hbv
  · have h := map_fst_MakeVectorMapping (rowAvailability includeEdges N)
    rw [length_rowAvailability] at h
    exact h
  · have h := map_fst_MakeVectorMapping (columnAvailability includeEdges N)
    rw [length_columnAvailability] at h
    exact h

theorem claim_C2_witness :
    (∀ e ∈ [Edge.mk 0 1, Edge.mk 2 1], e.u < 4) ∧
    (∀ e ∈ [Edge.mk 0 1, Edge.mk 2 1], e.v < 4) ∧
    ((MakeVectorMapping (rowAvailability [Edge.mk 0 1, Edge.mk 2 1] 4)).length =
      4 - ([Edge.mk 0 1, Edge.mk 2 1].map Edge.u).dedup.length ∧
    (MakeVectorMapping (columnAvailability [Edge.mk 0 1, Edge.mk 2 1] 4)).length =
      4 - ([Edge.mk 0 1, Edge.mk 2 1].map Edge.v).dedup.length ∧
    (MakeVectorMapping (rowAvailability [Edge.mk 0 1, Edge.mk 2 1] 4)).map Prod.snd =
      List.range (MakeVectorMapping (rowAvailability [Edge.mk 0 1, Edge.mk 2 1] 4)).length ∧
    (MakeVectorMapping (columnAvailability [Edge.mk 0 1, Edge.mk 2 1] 4)).map Prod.snd =
      List.range (MakeVectorMapping (columnAvailability [Edge.mk 0 1, Edge.mk 2 1] 4)).length ∧
    (MakeVectorMapping (rowAvailability [Edge.mk 0 1, Edge.mk 2 1] 4)).map Prod.fst =
      (List.range 4).filter
        (fun i => (rowAvailability [Edge.mk 0 1, Edge.mk 2 1] 4).getD i false) ∧
    (MakeVectorMapping (columnAvailability [Edge.mk 0 1, Edge.mk 2 1] 4)).map Prod.fst =
      (List.range 4).filter
        (fun j => (columnAvailability [Edge.mk 0 1, Edge.mk 2 1] 4).getD j false)) :=
  ⟨by decide, by decide,
    claim_C2 [Edge.mk 0 1, Edge.mk 2 1] 4 (by decide) (by decide)⟩

/-- C3: For every constructed CostMatrix, before any reduction: every
exclude edge `(u,v)` whose endpoints are both available has its cell
infinite; every exclude edge with an already-unavailable row or column
endpoint is silently skipped (filtering them out constructs the identical
matrix); and every cell at an available `(row, column)` pair not named by
an exclude edge equals the graph's original cost `graph(i,j)`, carrying
provenance `Edge{i,j}`. -/
theorem claim_C3 (graph : Nat → Nat → Int) (numVertices : Nat)
    (includeEdges excludeEdges : List Edge) (i j r c : Nat)
    (hr : (CostMatrixInit graph numVertices includeEdges excludeEdges).rowMapping.lookup i
      = some r)
    (hc : (CostMatrixInit graph numVertices includeEdges excludeEdges).columnMapping.lookup j
      = some c) :
    cellAt (CostMatrixInit graph numVertices includeEdges excludeEdges).entries r c =
      (if excludeEdges.any (fun e => decide (e.u = i) && decide (e.v = j))
       then setInfinite (CostMatrixInteger.mk (graph i j) false (Edge.mk i j))
       else CostMatrixInteger.mk (graph i j) false (Edge.mk i j)) ∧
    CostMatrixInit graph numVertices includeEdges excludeEdges =
      CostMatrixInit graph numVertices includeEdges
        (excludeEdges.filter (fun e =>
          ((CostMatrixInit graph numVertices includeEdges
              excludeEdges).rowMapping.lookup e.u).isSome &&
          ((CostMatrixInit graph numVertices includeEdges
              excludeEdges).columnMapping.lookup e.v).isSome)) := by
  refine ⟨CostMatrixInit_cell graph numVertices includeEdges excludeEdges hr hc, ?_⟩
  show CostMatrix.mk _ _ _ = CostMatrix.mk _ _ _
  congr 1
  exact excludeFold_filter _ _ excludeEdges _

theorem claim_C3_witness :
    (CostMatrixInit (fun a b => (10 * a + b : Int)) 3 []
        [Edge.mk 0 1, Edge.mk 5 0]).rowMapping.lookup 0 = some 0 ∧
    (CostMatrixInit (fun a b => (10 * a + b : Int)) 3 []
        [Edge.mk 0 1, Edge.mk 5 0]).columnMapping.lookup 1 = some 1 ∧
    (cellAt (CostMatrixInit (fun a b => (10 * a + b : Int)) 3 []
        [Edge.mk 0 1, Edge.mk 5 0]).entries 0 1 =
      (if [Edge.mk 0 1, Edge.mk 5 0].any
          (fun e => decide (e.u = 0) && decide (e.v = 1))
       then setInfinite (CostMatrixInteger.mk ((10 * 0 + 1 : Int)) false (Edge.mk 0 1))
       else CostMatrixInteger.mk ((10 * 0 + 1 : Int)) false (Edge.mk 0 1)) ∧
    CostMatrixInit (fun a b => (10 * a + b : Int)) 3 [] [Edge.mk 0 1, Edge.mk 5 0] =
      CostMatrixInit (fun a b => (10 * a + b : Int)) 3 []
        ([Edge.mk 0 1, Edge.mk 5 0].filter (fun e =>
          ((CostMatrixInit (fun a b => (10 * a + b : Int)) 3 []
              [Edge.mk 0 1, Edge.mk 5 0]).rowMapping.lookup e.u).isSome &&
          ((CostMatrixInit (fun a b => (10 * a + b : Int)) 3 []
              [Edge.mk 0 1, Edge.mk 5 0]).columnMapping.lookup e.v).isSome))) :=
  ⟨by decide, by decide,
    claim_C3 (fun a b => (10 * a + b : Int)) 3 [] [Edge.mk 0 1, Edge.mk 5 0]
      0 1 0 1 (by decide) (by decide)⟩

theorem GetCondensedRowNum_none {M : CostMatrix} {i : Nat}
    (h : M.rowMapping.lookup i = none) :
    GetCondensedRowNum M i = Except.error NotAvailableRow := by
  unfold GetCondensedRowNum
  rw [h]

theorem GetCondensedRowNum_some {M : CostMatrix} {i r : Nat}
    (h : M.rowMapping.lookup i = some r) :
    GetCondensedRowNum M i = Except.ok r := by
  unfold GetCondensedRowNum
  rw [h]

theorem GetCondensedColumnNum_none {M : CostMatrix} {j : Nat}
    (h : M.columnMapping.lookup j = none) :
    GetCondensedColumnNum M j = Except.error NotAvailableColumn := by
  unfold GetCondensedColumnNum
  rw [h]

theorem GetCondensedColumnNum_some {M : CostMatrix} {j c : Nat}
    (h : M.columnMapping.lookup j = some c) :
    GetCondensedColumnNum M j = Except.ok c := by
  unfold GetCondensedColumnNum
  rw [h]

theorem costMatrixApply_row_error {M : CostMatrix} {e : Edge} {s : String}
    (h : GetCondensedRowNum M e.u = Except.error s) :
    costMatrixApply M e = Except.error s := by
  unfold costMatrixApply
  rw [h]
  cases GetCondensedColumnNum M e.v <;> rfl

theorem costMatrixApply_col_error {M : CostMatrix} {e : Edge} {r : Nat} {s : String}
    (h1 : GetCondensedRowNum M e.u = Except.ok r)
    (h2 : GetCondensedColumnNum M e.v = Except.error s) :
    costMatrixApply M e = Except.error s := by
  unfold costMatrixApply
  rw [h1, h2]

theorem costMatrixApply_ok {M : CostMatrix} {e : Edge} {r c : Nat}
    (h1 : GetCondensedRowNum M e.u = Except.ok r)
    (h2 : GetCondensedColumnNum M e.v = Except.ok c) :
    costMatrixApply M e = Except.ok (cellAt M.entries r c) := by
  unfold costMatrixApply
  rw [h1, h2]

theorem GetRow_error {M : CostMatrix} {i : Nat} {s : String}
    (h : GetCondensedRowNum M i = Except.error s) :
    GetRow M i = Except.error s := by
  unfold GetRow
  rw [h]

theorem GetRow_ok {M : CostMatrix} {i r : Nat}
    (h : GetCondensedRowNum M i = Except.ok r) :
    GetRow M i = Except.ok (M.entries.getD r []) := by
  unfold GetRow
  rw [h]

theorem GetColumn_error {M : CostMatrix} {j : Nat} {s : String}
    (h : GetCondensedColumnNum M j = Except.error s) :
    GetColumn M j = Except.error s := by
  unfold GetColumn
  rw [h]

theorem GetColumn_ok {M : CostMatrix} {j c : Nat}
    (h : GetCondensedColumnNum M j = Except.ok c) :
    GetColumn M j = Except.ok (getCol M.entries c) := by
  unfold GetColumn
  rw [h]

/-- A vertex committed as an include-edge origin is absent from the row
mapping. -/
theorem lookup_rowMapping_none {includeEdges : List Edge} {N i : Nat}
    (he : ∃ e ∈ includeEdges, e.u = i) :
    (MakeVectorMapping (rowAvailability includeEdges N)).lookup i = none := by
  rw [lookup_MakeVectorMapping]
  have hfalse : (rowAvailability includeEdges N).getD i false = false := by
    rw [rowAvailability_getD]
    obtain ⟨e, he1, he2⟩ := he
    have hany : includeEdges.any (fun e => decide (e.u = i)) = true :=
      List.any_eq_true.mpr ⟨e, he1, by simp [he2]⟩
    simp [hany]
  rw [List.getD_eq_getElem?_getD] at hfalse
  simp [hfalse]

/-- A vertex committed as an include-edge destination is absent from the
column mapping. -/
theorem lookup_columnMapping_none {includeEdges : List Edge} {N j : Nat}
    (he : ∃ e ∈ includeEdges, e.v = j) :
    (MakeVectorMapping (columnAvailability includeEdges N)).lookup j = none := by
  rw [lookup_MakeVectorMapping]
  have hfalse : (columnAvailability includeEdges N).getD j false = false := by
    rw [columnAvailability_getD]
    obtain ⟨e, he1, he2⟩ := he
    have hany : includeEdges.any (fun e => decide (e.v = j)) = true :=
      List.any_eq_true.mpr ⟨e, he1, by simp [he2]⟩
    simp [hany]
  rw [List.getD_eq_getElem?_getD] at hfalse
  simp [hfalse]

/-- C7: For every CostMatrix and every query naming a vertex that is
unavailable on the queried axis (committed as the origin resp. destination
of an include edge), each of `operator()(row, column)`, `operator()(Edge)`,
`GetRow`, and `GetColumn` fails with the distinct unavailable-index error
(`NotAvailableError`, with the row resp. column message); when both queried
endpoints are available, these operations succeed and return the
corresponding condensed cell or view. -/
theorem claim_C7 (graph : Nat → Nat → Int) (N : Nat)
    (includeEdges excludeEdges : List Edge) (M : CostMatrix)
    (hM : M = CostMatrixInit graph N includeEdges excludeEdges) :
    (∀ i, (∃ e ∈ includeEdges, e.u = i) →
      GetCondensedRowNum M i = Except.error NotAvailableRow ∧
      (∀ j, costMatrixAt M i j = Except.error NotAvailableRow ∧
        costMatrixApply M (Edge.mk i j) = Except.error NotAvailableRow) ∧
      GetRow M i = Except.error NotAvailableRow) ∧
    (∀ j, (∃ e ∈ includeEdges, e.v = j) →
      GetCondensedColumnNum M j = Except.error NotAvailableColumn ∧
      (∀ i r, M.rowMapping.lookup i = some r →
        costMatrixAt M i j = Except.error NotAvailableColumn ∧
        costMatrixApply M (Edge.mk i j) = Except.error NotAvailableColumn) ∧
      GetColumn M j = Except.error NotAvailableColumn) ∧
    (∀ i j r c, M.rowMapping.lookup i = some r →
      M.columnMapping.lookup j = some c →
      GetCondensedRowNum M i = Except.ok r ∧
      GetCondensedColumnNum M j = Except.ok c ∧
      costMatrixAt M i j = Except.ok (cellAt M.entries r c) ∧
      costMatrixApply M (Edge.mk i j) = Except.ok (cellAt M.entries r c) ∧
      GetRow M i = Except.ok (M.entries.getD r []) ∧
      GetColumn M j = Except.ok (getCol M.entries c)) := by
  have hrmap : M.rowMapping = MakeVectorMapping (rowAvailability includeEdges N) := by
    rw [hM]
    rfl
  have hcmap : M.columnMapping = MakeVectorMapping (columnAvailability includeEdges N) := by
    rw [hM]
    rfl
  refine ⟨?_, ?_, ?_⟩
  · intro i he
    have hnone : M.rowMapping.lookup i = none := by
      rw [hrmap]
      exact lookup_rowMapping_none he
    have h1 := GetCondensedRowNum_none hnone
    exact ⟨h1, fun j => ⟨costMatrixApply_row_error h1, costMatrixApply_row_error h1⟩,
      GetRow_error h1⟩
  · intro j he
    have hnone : M.columnMapping.lookup j = none := by
      rw [hcmap]
      exact lookup_columnMapping_none he
    have h1 := GetCondensedColumnNum_none hnone
    refine ⟨h1, ?_, GetColumn_error h1⟩
    intro i r hir
    have h2 := GetCondensedRowNum_some hir
    exact ⟨costMatrixApply_col_error h2 h1, costMatrixApply_col_error h2 h1⟩
  · intro i j r c hir hjc
    have h1 := GetCondensedRowNum_some hir
    have h2 := GetCondensedColumnNum_some hjc
    exact ⟨h1, h2, costMatrixApply_ok h1 h2, costMatrixApply_ok h1 h2,
      GetRow_ok h1, GetColumn_ok h2⟩

theorem claim_C7_witness :
    ((CostMatrix.mk
        (MakeVectorMapping (rowAvailability [Edge.mk 0 1] 4))
        (MakeVectorMapping (columnAvailability [Edge.mk 0 1] 4))
        (CostMatrixInit (fun a b => (10 * a + b : Int)) 4 [Edge.mk 0 1] []).entries) =
      CostMatrixInit (fun a b => (10 * a + b : Int)) 4 [Edge.mk 0 1] []) ∧
    ((∃ e ∈ [Edge.mk 0 1], e.u = 0) ∧
      GetCondensedRowNum
        (CostMatrixInit (fun a b => (10 * a + b : Int)) 4 [Edge.mk 0 1] []) 0 =
        Except.error NotAvailableRow) ∧
    ((∃ e ∈ [Edge.mk 0 1], e.v = 1) ∧
      GetCondensedColumnNum
        (CostMatrixInit (fun a b => (10 * a + b : Int)) 4 [Edge.mk 0 1] []) 1 =
        Except.error NotAvailableColumn) ∧
    ((CostMatrixInit (fun a b => (10 * a + b : Int)) 4
        [Edge.mk 0 1] []).rowMapping.lookup 1 = some 0 ∧
      (CostMatrixInit (fun a b => (10 * a + b : Int)) 4
        [Edge.mk 0 1] []).columnMapping.lookup 0 = some 0 ∧
      costMatrixAt (CostMatrixInit (fun a b => (10 * a + b : Int)) 4 [Edge.mk 0 1] [])
          1 0 =
        Except.ok (cellAt (CostMatrixInit (fun a b => (10 * a + b : Int)) 4
          [Edge.mk 0 1] []).entries 0 0)) := by
  have h := claim_C7 (fun a b => (10 * a + b : Int)) 4 [Edge.mk 0 1] []
    (CostMatrixInit (fun a b => (10 * a + b : Int)) 4 [Edge.mk 0 1] []) rfl
  refine ⟨by decide, ⟨by decide, ?_⟩, ⟨by decide, ?_⟩, by decide, by decide, ?_⟩
  · exact (h.1 0 (by decide)).1
  · exact (h.2.1 1 (by decide)).1
  · exact (h.2.2 1 0 0 0 (by decide) (by decide)).2.2.1

/-- C9: A CostRow/CostColumn view iterator advances exactly `size` times
before comparing equal to its end sentinel (index `size`), and the
whole-matrix iterator visits exactly `rows × columns` cells in row-major
order — after `n` increments it sits at `(n / cols, n % cols)`, the
column varying fastest — reaching its end state exactly at
`(numRows, 0)`; in particular, on a zero-sized matrix (`rows = 0`, any
column count, hence also `0 × 0`) the iterator iterates zero times and its
begin immediately compares equal to end.  The matrix-iterator clauses carry
the definedness hypothesis `0 < cols ∨ rows = 0`: with `rows > 0` and
`cols = 0` the C++ computes `(column + 1) % 0`, which is undefined
behaviour. -/
theorem claim_C9 (size rows cols : Nat) (h : 0 < cols ∨ rows = 0) :
    ((vectorIteratorStep size)^[size] 0 = size ∧
      ∀ n, n < size → (vectorIteratorStep size)^[n] 0 ≠ size) ∧
    ((∀ n, n ≤ rows * cols →
        (MoveToNextCell rows cols)^[n] (0, 0) = (n / cols, n % cols)) ∧
      (MoveToNextCell rows cols)^[rows * cols] (0, 0) = (rows, 0) ∧
      ∀ n, n < rows * cols → (MoveToNextCell rows cols)^[n] (0, 0) ≠ (rows, 0)) := by
  refine ⟨⟨?_, ?_⟩, matrixIterator_iterate h, ?_, ?_⟩
  · rw [vectorIterator_iterate size size, Nat.min_self]
  · intro n hn
    rw [vectorIterator_iterate size n, Nat.min_eq_left (Nat.le_of_lt hn)]
    omega
  · rw [matrixIterator_iterate h (rows * cols) (Nat.le_refl _)]
    rcases h with hcols | hrows
    · rw [Nat.mul_div_cancel _ hcols, Nat.mul_mod_left]
    · subst hrows
      simp
  · intro n hn
    rcases h with hcols | hrows
    · rw [matrixIterator_iterate (Or.inl hcols) n (Nat.le_of_lt hn)]
      intro hcon
      have h1 : n / cols = rows := congrArg Prod.fst hcon
      have h2 : n / cols < rows :=
        Nat.div_lt_of_lt_mul (by rw [Nat.mul_comm]; exact hn)
      omega
    · subst hrows
      simp at hn

theorem claim_C9_witness :
    ((0 < 2 ∨ (2 : Nat) = 0) ∧
      (((vectorIteratorStep 3)^[3] 0 = 3 ∧
        ∀ n, n < 3 → (vectorIteratorStep 3)^[n] 0 ≠ 3) ∧
      ((∀ n, n ≤ 2 * 2 →
          (MoveToNextCell 2 2)^[n] (0, 0) = (n / 2, n % 2)) ∧
        (MoveToNextCell 2 2)^[2 * 2] (0, 0) = (2, 0) ∧
        ∀ n, n < 2 * 2 → (MoveToNextCell 2 2)^[n] (0, 0) ≠ (2, 0)))) ∧
    ((0 < 5 ∨ (0 : Nat) = 0) ∧
      (MoveToNextCell 0 5)^[0 * 5] (0, 0) = (0, 0)) :=
  ⟨⟨by decide, claim_C9 3 2 2 (by decide)⟩,
   ⟨by decide, (claim_C9 3 0 5 (by decide)).2.2.1⟩⟩

/-- C10: Incrementing an iterator that is already at its end position is a
no-op: `CostVector::Iterator`'s `operator++` only advances while the index
is strictly below the vector's `Size()` (so from any index at or below
`size` it never moves past `size`), and `CostMatrix::Iterator`'s
`MoveToNextCell` returns immediately at `(numRows, 0)`, so repeated
increments never move either iterator past its end sentinel. -/
theorem claim_C10 (size idx rows cols : Nat) :
    vectorIteratorStep size size = size ∧
    (idx ≤ size → vectorIteratorStep size idx ≤ size ∧
      ∀ n, (vectorIteratorStep size)^[n] idx ≤ size) ∧
    MoveToNextCell rows cols (rows, 0) = (rows, 0) ∧
    ∀ n, (MoveToNextCell rows cols)^[n] (rows, 0) = (rows, 0) := by
  have hstep : ∀ k, k ≤ size → vectorIteratorStep size k ≤ size := by
    intro k hk
    unfold vectorIteratorStep
    by_cases h : k < size
    · rw [if_pos h]
      omega
    · rw [if_neg h]
      exact hk
  refine ⟨?_, fun hidx => ⟨hstep idx hidx, ?_⟩, MoveToNextCell_end rows cols, ?_⟩
  · unfold vectorIteratorStep
    rw [if_neg (by omega)]
  · intro n
    induction n with
    | zero => exact hidx
    | succ n ih =>
      rw [Function.iterate_succ_apply']
      exact hstep _ ih
  · intro n
    induction n with
    | zero => rfl
    | succ n ih =>
      rw [Function.iterate_succ_apply', ih, MoveToNextCell_end]

theorem claim_C10_witness :
    vectorIteratorStep 3 3 = 3 ∧
    ((2 : Nat) ≤ 3 ∧ (vectorIteratorStep 3 2 ≤ 3 ∧
      ∀ n, (vectorIteratorStep 3)^[n] 2 ≤ 3)) ∧
    MoveToNextCell 2 2 (2, 0) = (2, 0) ∧
    ∀ n, (MoveToNextCell 2 2)^[n] (2, 0) = (2, 0) := by
  have h := claim_C10 3 2 2 2
  exact ⟨h.1, ⟨by decide, h.2.1 (by decide)⟩, h.2.2.1, h.2.2.2⟩

end LittleTSP
